import Mathlib

/-!
Verification of the column-family emulation layer of `engine_agate`
(`utils.rs`, `write_batch.rs`, `engine.rs`, `snapshot.rs`, `sst.rs`).

Modelling conventions:
* Byte strings (`&[u8]`, `Bytes`, `Vec<u8>`) are `List Nat` (each element a
  byte value).  Rust string literals such as the delimiter `"@!@"` or the
  column-family name `"default"` are their ASCII byte sequences.
* `std::str::from_utf8(..).unwrap()` followed by `str::split` on the ASCII
  delimiter `"@!@"` is modelled directly on the byte sequence: splitting a
  valid UTF-8 string at an ASCII substring is the same as splitting its byte
  sequence, so the decode step is the identity on the bytes (the panic on
  non-UTF-8 input is outside the model; every input used below is ASCII).
* Rust slice/`Bytes` comparison (`<`, `<=`) is lexicographic byte order,
  modelled by `lexLt` / `lexLe`.
* The underlying `agatedb` transactional engine (an external collaborator)
  is modelled as a key-value store held as a list of (physical key, value)
  pairs kept in ascending physical-key order; a transaction is a functional
  view of that store, published atomically on `commit` and discarded on
  error.  `txn.get` returning `Err(KeyNotFound)` is modelled by the lookup
  returning `none`.
* Fallible Rust functions returning `Result` are modelled as
  `Except EngineError _`; methods that mutate `self` return the result
  paired with the updated state, the state being unchanged in the error
  case exactly when the source returns before mutating.
-/

namespace EngineAgate

/-- ASCII byte sequence of a Rust string literal (all literals used in the
source are ASCII, where each `Char` is one byte). -/
def asc (s : String) : List Nat := s.data.map Char.toNat

/-- Lexicographic strict order on byte strings: Rust `<` on `&[u8]`/`Bytes`. -/
def lexLt : List Nat → List Nat → Bool
  | [], [] => false
  | [], _ :: _ => true
  | _ :: _, [] => false
  | a :: as, b :: bs => a < b || (a = b && lexLt as bs)

/-- Lexicographic `<=` on byte strings: Rust `<=` on `&[u8]`/`Bytes`. -/
def lexLe (a b : List Nat) : Bool := lexLt a b || a == b

/-- `engine_traits::CF_DEFAULT`, the name `"default"`. -/
def CF_DEFAULT : List Nat := asc "default"

/-- `utils.rs`: `static DELIMITER: &str = "@!@"` (bytes 64, 33, 64). -/
def DELIMITER : List Nat := asc "@!@"

/-- `utils.rs` `add_cf_prefix`: physical key `${CF_NAME}${DELIMITER}${KEY}`,
with `CF_DEFAULT` substituted when no column family is given. -/
def add_cf_prefix (key : List Nat) (cf_name : Option (List Nat)) : List Nat :=
  (cf_name.getD CF_DEFAULT) ++ DELIMITER ++ key

/-- Prepend a byte to the first piece of a split result (used to build
`splitSeq`: a byte that does not start a delimiter occurrence belongs to
the current piece). -/
def headCons (c : Nat) : List (List Nat) → List (List Nat)
  | [] => [[c]]
  | piece :: pieces => (c :: piece) :: pieces

/-- `str::split(DELIMITER)` on the byte sequence: split at each
non-overlapping, leftmost-first occurrence of `[64, 33, 64]` (`"@!@"`).
Splitting an empty string yields one empty piece, as in Rust. -/
def splitSeq : List Nat → List (List Nat)
  | [] => [[]]
  | [c] => [[c]]
  | [c, d] => [[c, d]]
  | c :: d :: e :: rest =>
    if c = 64 ∧ d = 33 ∧ e = 64 then [] :: splitSeq rest
    else headCons c (splitSeq (d :: e :: rest))

/-- `utils.rs` `get_cf_and_key`: split the physical key at the delimiter,
remove the first piece (the column-family name) and concatenate the rest
back into the logical key. -/
def get_cf_and_key (key_with_cf : List Nat) : List Nat × List Nat :=
  match splitSeq key_with_cf with
  | [] => ([], [])
  | cf_name :: key_vec => (cf_name, key_vec.flatten)

/-- Whether the delimiter `"@!@"` occurs in a byte string. -/
def containsDelim : List Nat → Bool
  | c :: d :: e :: rest => (c = 64 && d = 33 && e = 64) || containsDelim (d :: e :: rest)
  | _ => false

example : asc "@!@" = [64, 33, 64] := by decide
example : add_cf_prefix (asc "key") none = asc "default@!@key" := by decide
example : add_cf_prefix (asc "key") (some (asc "cf")) = asc "cf@!@key" := by decide
example : get_cf_and_key (asc "cf@!@key") = (asc "cf", asc "key") := by decide
example : get_cf_and_key (asc "cf@!@") = (asc "cf", []) := by decide
example : get_cf_and_key (asc "default@!@a@!@b") = (asc "default", asc "ab") := by decide

theorem splitSeq_cons3 (c d e : Nat) (rest : List Nat) :
    splitSeq (c :: d :: e :: rest) =
      if c = 64 ∧ d = 33 ∧ e = 64 then [] :: splitSeq rest
      else headCons c (splitSeq (d :: e :: rest)) := by
  rw [splitSeq.eq_def]

theorem splitSeq_delim3 (rest : List Nat) :
    splitSeq (64 :: 33 :: 64 :: rest) = [] :: splitSeq rest := by
  rw [splitSeq_cons3, if_pos ⟨rfl, rfl, rfl⟩]

/-- A byte string with no delimiter occurrence splits into a single piece. -/
theorem splitSeq_of_not_contains : ∀ {l : List Nat},
    containsDelim l = false → splitSeq l = [l]
  | [], _ => rfl
  | [c], _ => rfl
  | [c, d], _ => rfl
  | c :: d :: e :: rest, h => by
    have hsp : ¬(c = 64 ∧ d = 33 ∧ e = 64) := by
      intro ⟨h1, h2, h3⟩
      simp [containsDelim, h1, h2, h3] at h
    have htail : containsDelim (d :: e :: rest) = false := by
      rw [containsDelim.eq_def] at h
      simp only [Bool.or_eq_false_iff] at h
      exact h.2
    rw [splitSeq_cons3, if_neg hsp, splitSeq_of_not_contains htail]
    rfl

/-- Splitting `cf ++ "@!@" ++ r` peels off exactly `cf` when `cf` neither
contains the delimiter nor ends with `"@!"` (bytes `[64, 33]`). -/
theorem splitSeq_append_delim : ∀ {cf : List Nat} (r : List Nat),
    containsDelim cf = false → ¬ [64, 33] <:+ cf →
    splitSeq (cf ++ 64 :: 33 :: 64 :: r) = cf :: splitSeq r
  | [], r, _, _ => by
    rw [List.nil_append, splitSeq_delim3]
  | [a], r, _, _ => by
    have hsp : ¬(a = 64 ∧ (64 : Nat) = 33 ∧ (33 : Nat) = 64) := by omega
    show splitSeq (a :: 64 :: 33 :: 64 :: r) = [a] :: splitSeq r
    rw [splitSeq_cons3 a 64 33, if_neg hsp, splitSeq_delim3]
    rfl
  | [a, b], r, _, hend => by
    have hsp : ¬(a = 64 ∧ b = 33 ∧ (64 : Nat) = 64) := by
      intro ⟨h1, h2, _⟩
      subst h1; subst h2
      exact hend (List.suffix_refl _)
    have hsp2 : ¬(b = 64 ∧ (64 : Nat) = 33 ∧ (33 : Nat) = 64) := by omega
    show splitSeq (a :: b :: 64 :: 33 :: 64 :: r) = [a, b] :: splitSeq r
    rw [splitSeq_cons3 a b 64, if_neg hsp, splitSeq_cons3 b 64 33, if_neg hsp2,
      splitSeq_delim3]
    rfl
  | a :: b :: c2 :: t, r, hcont, hend => by
    have hsp : ¬(a = 64 ∧ b = 33 ∧ c2 = 64) := by
      intro ⟨h1, h2, h3⟩
      simp [containsDelim, h1, h2, h3] at hcont
    have htail : containsDelim (b :: c2 :: t) = false := by
      rw [containsDelim.eq_def] at hcont
      simp only [Bool.or_eq_false_iff] at hcont
      exact hcont.2
    have htailEnd : ¬ [64, 33] <:+ (b :: c2 :: t) := fun hs =>
      hend (hs.trans (List.suffix_cons a _))
    show splitSeq (a :: b :: c2 :: (t ++ 64 :: 33 :: 64 :: r)) = _
    rw [splitSeq_cons3 a b c2, if_neg hsp,
      show b :: c2 :: (t ++ 64 :: 33 :: 64 :: r)
        = (b :: c2 :: t) ++ 64 :: 33 :: 64 :: r from rfl,
      splitSeq_append_delim r htail htailEnd]
    rfl

/-- Decoding recovers the exact encoded pair when the column-family name
contains no delimiter and does not end with `"@!"`, and the logical key
contains no delimiter.  This is the shared round-trip fact behind the
key-codec claims. -/
theorem get_cf_and_key_add {cf key : List Nat}
    (hcfc : containsDelim cf = false) (hcfe : ¬ [64, 33] <:+ cf)
    (hkey : containsDelim key = false) :
    get_cf_and_key ( add_cf_prefix key (some cf)) = (cf, key) := by
  unfold add_cf_prefix get_cf_and_key
  simp only [Option.getD_some]
  rw [show DELIMITER = [64, 33, 64] from rfl, List.append_assoc,
    show ([64, 33, 64] ++ key : List Nat) = 64 :: 33 :: 64 :: key from rfl,
    splitSeq_append_delim key hcfc hcfe, splitSeq_of_not_contains hkey]
  simp

theorem lexLt_append_left (p a b : List Nat) :
    lexLt (p ++ a) (p ++ b) = lexLt a b := by
  induction p with
  | nil => rfl
  | cons c t ih => simp [lexLt, ih]

/-- C1 (amended): the key codec round-trips, including the empty logical
key, provided the column-family name contains no `"@!@"` and does not end
with `"@!"`, and the logical key contains no `"@!@"`; this holds both for
an explicitly named column family and for the implicit default family.
(The unamended claim, for all byte keys, is refuted by
`claim_C1_counterexample`: a key containing the delimiter is mangled by the
split-and-concatenate decode.) -/
theorem claim_C1 (cf key : List Nat) (hcfc : containsDelim cf = false)
    (hcfe : ¬ [64, 33] <:+ cf) (hkey : containsDelim key = false) :
    get_cf_and_key ( add_cf_prefix key (some cf)) = (cf, key) ∧
    get_cf_and_key ( add_cf_prefix key none) = (CF_DEFAULT, key) := by
  refine ⟨get_cf_and_key_add hcfc hcfe hkey, ?_⟩
  have hdef : ( add_cf_prefix key none) = add_cf_prefix key (some CF_DEFAULT) := rfl
  rw [hdef]
  exact get_cf_and_key_add (by decide) (by decide) hkey

/-- C1 witness: concrete instance of the amended round-trip at the column
family `"write"` and the empty logical key (the empty key round-trips and
is not swallowed by the delimiter split). -/
theorem claim_C1_witness :
    containsDelim (asc "write") = false ∧ ¬ [64, 33] <:+ (asc "write") ∧
    containsDelim ([] : List Nat) = false ∧
    get_cf_and_key ( add_cf_prefix [] (some (asc "write"))) = (asc "write", []) ∧
    get_cf_and_key ( add_cf_prefix [] none) = (CF_DEFAULT, []) :=
  ⟨by decide, by decide, by decide,
    (claim_C1 (asc "write") [] (by decide) (by decide) (by decide)).1,
    (claim_C1 (asc "write") [] (by decide) (by decide) (by decide)).2⟩

/-- C1 counterexample: the claim as stated quantifies over all logical
keys, but the logical key `"a@!@b"` (which contains the delimiter) does
not round-trip: it decodes to `("default", "ab")`, not
`("default", "a@!@b")`. -/
theorem claim_C1_counterexample :
    get_cf_and_key ( add_cf_prefix (asc "a@!@b") none) ≠ (CF_DEFAULT, asc "a@!@b") := by
  decide

/-- C6: for a fixed column family (explicit or default), encoding is
order-preserving: the lexicographic byte order of two encoded physical keys
equals the lexicographic byte order of the two logical keys. -/
theorem claim_C6 (cf : Option (List Nat)) (key1 key2 : List Nat) :
    lexLt ( add_cf_prefix key1 cf) ( add_cf_prefix key2 cf) = lexLt key1 key2 := by
  unfold add_cf_prefix
  rw [lexLt_append_left]

/-- `write_batch.rs` `WriteBatchOpType`: a buffered mutation record tagged
with its optional target column family. -/
inductive WriteBatchOpType
  | put (key value : List Nat) (cf : Option (List Nat))
  | delete (key : List Nat) (cf : Option (List Nat))
  | deleteRange (begin_key end_key : List Nat) (cf : Option (List Nat))
  deriving DecidableEq

/-- `engine_traits::Error` as produced by this crate: `Error::Engine(msg)`
(opaque engine / validation failures, carrying the message string) and
`Error::CFName(name)` (unknown column family). -/
inductive EngineError
  | engine (msg : String)
  | cfName (name : List Nat)
  deriving DecidableEq

/-- The keyspace of the underlying `agatedb` store / a transaction view of
it: (physical key, value) pairs in ascending physical-key order. -/
abbrev Store := List (List Nat × List Nat)

/-- `txn.set`: insert or overwrite one physical key, keeping ascending
key order. -/
def storeSet : Store → List Nat → List Nat → Store
  | [], k, v => [(k, v)]
  | (k', v') :: rest, k, v =>
    if lexLt k k' then (k, v) :: (k', v') :: rest
    else if k = k' then (k, v) :: rest
    else (k', v') :: storeSet rest k v

/-- `txn.delete`: remove one physical key (no effect if absent). -/
def storeDel : Store → List Nat → Store
  | [], _ => []
  | (k', v') :: rest, k => if k = k' then rest else (k', v') :: storeDel rest k

/-- `txn.get`; the result `none` models `Err(Error::KeyNotFound)`. -/
def storeGet : Store → List Nat → Option (List Nat)
  | [], _ => none
  | (k', v') :: rest, k => if k = k' then some v' else storeGet rest k

/-- `AgateWriteBatch`: the buffered mutation log.  `save_points` is the
`Vec<usize>` stack of record counts, pushed/popped at the end. -/
structure AgateWriteBatch where
  operations : List WriteBatchOpType
  save_points : List Nat
  deriving DecidableEq

/-- `WriteBatchExt::WRITE_BATCH_MAX_KEYS` for `AgateEngine`. -/
def WRITE_BATCH_MAX_KEYS : Nat := 128

/-- `AgateWriteBatch::new`: empty record list, empty save-point stack. -/
def AgateWriteBatch.new : AgateWriteBatch := ⟨[], []⟩

def AgateWriteBatch.count (wb : AgateWriteBatch) : Nat := wb.operations.length

def AgateWriteBatch.is_empty (wb : AgateWriteBatch) : Bool := wb.operations.isEmpty

def AgateWriteBatch.should_write_to_engine (wb : AgateWriteBatch) : Bool :=
  decide (wb.count > WRITE_BATCH_MAX_KEYS)

def AgateWriteBatch.clear (wb : AgateWriteBatch) : AgateWriteBatch := ⟨[], []⟩

/-- `Mutable::put`: append a `Put` record with no column family.  Always
`Ok`; no engine interaction. -/
def AgateWriteBatch.put (wb : AgateWriteBatch) (key value : List Nat) :
    Except EngineError Unit × AgateWriteBatch :=
  (.ok (), { wb with operations := wb.operations ++ [.put key value none] })

/-- `Mutable::put_cf`. -/
def AgateWriteBatch.put_cf (wb : AgateWriteBatch) (cf key value : List Nat) :
    Except EngineError Unit × AgateWriteBatch :=
  (.ok (), { wb with operations := wb.operations ++ [.put key value (some cf)] })

/-- `Mutable::delete`. -/
def AgateWriteBatch.delete (wb : AgateWriteBatch) (key : List Nat) :
    Except EngineError Unit × AgateWriteBatch :=
  (.ok (), { wb with operations := wb.operations ++ [.delete key none] })

/-- `Mutable::delete_cf`. -/
def AgateWriteBatch.delete_cf (wb : AgateWriteBatch) (cf key : List Nat) :
    Except EngineError Unit × AgateWriteBatch :=
  (.ok (), { wb with operations := wb.operations ++ [.delete key (some cf)] })

/-- `Mutable::delete_range`. -/
def AgateWriteBatch.delete_range (wb : AgateWriteBatch) (begin_key end_key : List Nat) :
    Except EngineError Unit × AgateWriteBatch :=
  (.ok (), { wb with operations := wb.operations ++ [.deleteRange begin_key end_key none] })

/-- `Mutable::delete_range_cf`. -/
def AgateWriteBatch.delete_range_cf (wb : AgateWriteBatch)
    (cf begin_key end_key : List Nat) :
    Except EngineError Unit × AgateWriteBatch :=
  (.ok (), { wb with operations := wb.operations ++ [.deleteRange begin_key end_key (some cf)] })

/-- `set_save_point`: push the current record count. -/
def AgateWriteBatch.set_save_point (wb : AgateWriteBatch) : AgateWriteBatch :=
  { wb with save_points := wb.save_points ++ [wb.operations.length] }

/-- `pop_save_point`: discard the most recent marker, never touching the
records; error (and no change) when the marker stack is empty. -/
def AgateWriteBatch.pop_save_point (wb : AgateWriteBatch) :
    Except EngineError Unit × AgateWriteBatch :=
  if wb.save_points.isEmpty then (.error (.engine "No save point"), wb)
  else (.ok (), { wb with save_points := wb.save_points.dropLast })

/-- `rollback_to_save_point`: truncate the records back to the most recent
marker and pop it; error (and no change) when the marker stack is empty.
(`save_points.pop().unwrap()` reads the last element, modelled by
`getLast?.getD` after the emptiness check.) -/
def AgateWriteBatch.rollback_to_save_point (wb : AgateWriteBatch) :
    Except EngineError Unit × AgateWriteBatch :=
  if wb.save_points.isEmpty then (.error (.engine "No save point"), wb)
  else
    (.ok (), { operations := wb.operations.take (wb.save_points.getLast?.getD 0),
               save_points := wb.save_points.dropLast })

/-- `merge`: append the records of `src`, preserving order, leaving `src`
intact. -/
def AgateWriteBatch.merge (wb src : AgateWriteBatch) :
    Except EngineError Unit × AgateWriteBatch :=
  (.ok (), { wb with operations := wb.operations ++ src.operations })

/-- The `is_valid` closure of the `DeleteRange` arm of `write_opt`:
the iterator position is in range while the decoded column family matches
the record's (or the default when the record has none), the physical key is
not below `begin_key`, and it is below `end_key` (both already prefixed;
an empty bound is unbounded on that side). -/
def drIsValid (cf : Option (List Nat)) (begin_key end_key : List Nat)
    (entry : List Nat × List Nat) : Bool :=
  let cf_name := (get_cf_and_key entry.1).1
  (match cf with
   | some c => cf_name == c
   | none => cf_name == CF_DEFAULT) &&
  !(!begin_key.isEmpty && lexLt entry.1 begin_key) &&
  !(!end_key.isEmpty && !(lexLt entry.1 end_key))

/-- The replay loop of `write_opt` inside its single transaction: apply
each buffered record in append order to the transaction view.  A
`DeleteRange` with `end_key < begin_key` returns the validation error; a
valid `DeleteRange` seeks the first physical key not below the prefixed
`begin_key` (`dropWhile` over the ordered view) and deletes entries while
`is_valid` holds (`takeWhile`), mirroring the `while is_valid(&iter)` loop
over the transaction iterator (created before the deletes, so the deletes
do not affect the scanned sequence). -/
def replayOps : List WriteBatchOpType → Store → Except EngineError Store
  | [], view => .ok view
  | .put key value cf :: rest, view =>
      replayOps rest (storeSet view ( add_cf_prefix key cf) value)
  | .delete key cf :: rest, view =>
      replayOps rest (storeDel view ( add_cf_prefix key cf))
  | .deleteRange begin_key end_key cf :: rest, view =>
      if lexLt end_key begin_key then
        .error (.engine "end_key should be equal or greater than begin_key")
      else
        let bp := add_cf_prefix begin_key cf
        let ep := add_cf_prefix end_key cf
        let run := (view.dropWhile fun e => lexLt e.1 bp).takeWhile (drIsValid cf bp ep)
        replayOps rest (run.foldl (fun acc e => storeDel acc e.1) view)

/-- `WriteBatch::write_opt`: one transaction, replay every buffered record
in append order, then commit.  Commit publishes the transaction view
atomically; any error before commit leaves the store unchanged. -/
def write_opt (wb : AgateWriteBatch) (store : Store) :
    Except EngineError Unit × Store :=
  match replayOps wb.operations store with
  | .ok view => (.ok (), view)
  | .error e => (.error e, store)

theorem replayOps_error_of_bad_range :
    ∀ (ops : List WriteBatchOpType) (view : Store) (b e : List Nat)
      (cf : Option (List Nat)),
      WriteBatchOpType.deleteRange b e cf ∈ ops → lexLt e b = true →
      replayOps ops view
        = .error (.engine "end_key should be equal or greater than begin_key")
  | [], _, _, _, _, hmem, _ => absurd hmem (List.not_mem_nil _)
  | .put k v c :: rest, view, b, e, cf, hmem, hlt => by
    have hmem' : WriteBatchOpType.deleteRange b e cf ∈ rest := by
      rcases List.mem_cons.mp hmem with h | h
      · exact absurd h (by simp)
      · exact h
    rw [replayOps]
    exact replayOps_error_of_bad_range rest _ b e cf hmem' hlt
  | .delete k c :: rest, view, b, e, cf, hmem, hlt => by
    have hmem' : WriteBatchOpType.deleteRange b e cf ∈ rest := by
      rcases List.mem_cons.mp hmem with h | h
      · exact absurd h (by simp)
      · exact h
    rw [replayOps]
    exact replayOps_error_of_bad_range rest _ b e cf hmem' hlt
  | .deleteRange b' e' c' :: rest, view, b, e, cf, hmem, hlt => by
    rw [replayOps]
    by_cases hbad : lexLt e' b' = true
    · rw [if_pos hbad]
    · rw [if_neg hbad]
      have hmem' : WriteBatchOpType.deleteRange b e cf ∈ rest := by
        rcases List.mem_cons.mp hmem with h | h
        · exfalso
          injection h with h1 h2 h3
          subst h1; subst h2; subst h3
          exact hbad hlt
        · exact h
      exact replayOps_error_of_bad_range rest _ b e cf hmem' hlt

/-- C3: if any buffered record of the batch is a `DeleteRange` with
`end < begin` (lexicographic byte order on the logical keys), then
`write()` returns the invalid-range validation error and the store is
left exactly unchanged — no record of the batch, earlier or later in the
append order, becomes observable — wherever the invalid record sits. -/
theorem claim_C3 (wb : AgateWriteBatch) (store : Store) (b e : List Nat)
    (cf : Option (List Nat))
    (hmem : WriteBatchOpType.deleteRange b e cf ∈ wb.operations)
    (hlt : lexLt e b = true) :
    write_opt wb store
      = (.error (.engine "end_key should be equal or greater than begin_key"),
         store) := by
  unfold write_opt
  rw [replayOps_error_of_bad_range wb.operations store b e cf hmem hlt]

/-- C3 witness: a batch whose second record is a `DeleteRange` with
`end = "a" < begin = "b"`, surrounded by two puts, fails with the
invalid-range error and leaves the (empty) store unchanged. -/
theorem claim_C3_witness :
    WriteBatchOpType.deleteRange (asc "b") (asc "a") none ∈
      (AgateWriteBatch.mk
        [.put (asc "k") (asc "v") none,
         .deleteRange (asc "b") (asc "a") none,
         .put (asc "k2") (asc "v2") none] []).operations ∧
    lexLt (asc "a") (asc "b") = true ∧
    write_opt
        (AgateWriteBatch.mk
          [.put (asc "k") (asc "v") none,
           .deleteRange (asc "b") (asc "a") none,
           .put (asc "k2") (asc "v2") none] []) []
      = (.error (.engine "end_key should be equal or greater than begin_key"),
         []) :=
  ⟨by decide, by decide,
    claim_C3 _ [] (asc "b") (asc "a") none (by decide) (by decide)⟩

/-- A sequence of N buffered puts, each applied through
`put` / `put_cf` (one `Put` record appended per call). -/
def applyPuts (wb : AgateWriteBatch)
    (puts : List (List Nat × List Nat × Option (List Nat))) : AgateWriteBatch :=
  puts.foldl
    (fun b p =>
      match p.2.2 with
      | none => (b.put p.1 p.2.1).2
      | some c => (b.put_cf c p.1 p.2.1).2)
    wb

theorem applyPuts_operations (puts : List (List Nat × List Nat × Option (List Nat))) :
    ∀ wb : AgateWriteBatch,
      (applyPuts wb puts).operations
          = wb.operations ++ puts.map (fun p => .put p.1 p.2.1 p.2.2) ∧
      (applyPuts wb puts).save_points = wb.save_points := by
  induction puts with
  | nil => intro wb; simp [applyPuts]
  | cons p rest ih =>
    intro wb
    have hstep :
        applyPuts wb (p :: rest)
          = applyPuts { wb with operations := wb.operations ++ [.put p.1 p.2.1 p.2.2] } rest := by
      unfold applyPuts
      rcases p with ⟨k, v, _ | c⟩ <;> rfl
    rw [hstep]
    rcases ih { wb with operations := wb.operations ++ [.put p.1 p.2.1 p.2.2] } with ⟨h1, h2⟩
    refine ⟨?_, h2⟩
    rw [h1]
    simp

/-- C4: save-point rollback.  After `set_save_point()` (recording count
`c`) and N buffered puts, `rollback_to_save_point()` succeeds and returns
the batch to exactly its prior state: the count is back to `c`, and a
subsequent `write()` applies none of the N puts (it has the same effect on
every store as writing the original batch).  With an empty marker stack,
both `rollback_to_save_point()` and `pop_save_point()` fail with the
no-save-point error and change nothing; `pop_save_point()` never alters
the record sequence. -/
theorem claim_C4 (wb : AgateWriteBatch)
    (puts : List (List Nat × List Nat × Option (List Nat))) (store : Store) :
    (applyPuts wb.set_save_point puts).count = wb.count + puts.length ∧
    (applyPuts wb.set_save_point puts).rollback_to_save_point = (.ok (), wb) ∧
    write_opt ((applyPuts wb.set_save_point puts).rollback_to_save_point).2 store
        = write_opt wb store ∧
    (wb.save_points = [] →
      wb.rollback_to_save_point = (.error (.engine "No save point"), wb) ∧
      wb.pop_save_point = (.error (.engine "No save point"), wb)) ∧
    wb.pop_save_point.2.operations = wb.operations := by
  obtain ⟨hops, hsp⟩ := applyPuts_operations puts wb.set_save_point
  have hops' : (applyPuts wb.set_save_point puts).operations
      = wb.operations ++ puts.map (fun p => .put p.1 p.2.1 p.2.2) := by
    rw [hops]; rfl
  have hsp' : (applyPuts wb.set_save_point puts).save_points
      = wb.save_points ++ [wb.operations.length] := by
    rw [hsp]; rfl
  have hroll : (applyPuts wb.set_save_point puts).rollback_to_save_point
      = (.ok (), wb) := by
    unfold AgateWriteBatch.rollback_to_save_point
    rw [if_neg (by simp [hsp'])]
    rw [hops', hsp']
    rw [List.getLast?_concat, List.dropLast_concat]
    simp only [Option.getD_some, List.take_left]
  refine ⟨?_, hroll, ?_, ?_, ?_⟩
  · unfold AgateWriteBatch.count
    rw [hops']
    simp [AgateWriteBatch.set_save_point]
  · rw [hroll]
  · intro hempty
    constructor
    · unfold AgateWriteBatch.rollback_to_save_point
      rw [if_pos (by simp [hempty])]
    · unfold AgateWriteBatch.pop_save_point
      rw [if_pos (by simp [hempty])]
  · unfold AgateWriteBatch.pop_save_point
    by_cases h : wb.save_points.isEmpty <;> simp [h]

/-- C4 witness: a batch of one put with no save points; one save point is
set, one put is buffered, rollback returns the original batch, a write of
the rolled-back batch equals a write of the original, and the empty-stack
error cases fire. -/
theorem claim_C4_witness :
    (applyPuts (AgateWriteBatch.mk [.put (asc "a") (asc "v") none] []).set_save_point
        [(asc "k", asc "w", none)]).count
      = (AgateWriteBatch.mk [.put (asc "a") (asc "v") none] []).count + 1 ∧
    (applyPuts (AgateWriteBatch.mk [.put (asc "a") (asc "v") none] []).set_save_point
        [(asc "k", asc "w", none)]).rollback_to_save_point
      = (.ok (), AgateWriteBatch.mk [.put (asc "a") (asc "v") none] []) ∧
    (AgateWriteBatch.mk [.put (asc "a") (asc "v") none] []).save_points = [] ∧
    (AgateWriteBatch.mk [.put (asc "a") (asc "v") none] []).rollback_to_save_point
      = (.error (.engine "No save point"),
         AgateWriteBatch.mk [.put (asc "a") (asc "v") none] []) := by
  obtain ⟨h1, h2, _, h4, _⟩ :=
    claim_C4 (AgateWriteBatch.mk [.put (asc "a") (asc "v") none] [])
      [(asc "k", asc "w", none)] []
  exact ⟨h1, h2, rfl, (h4 rfl).1⟩

/-- C5: the flush threshold is advisory and strict: with exactly 128
buffered records `should_write_to_engine()` is false, with 129 it is true,
and appending one more record always just extends the buffered list (no
engine interaction, no auto-flush). -/
theorem claim_C5 (wb : AgateWriteBatch) (key value : List Nat) :
    (wb.count = 128 → wb.should_write_to_engine = false) ∧
    (wb.count = 129 → wb.should_write_to_engine = true) ∧
    (wb.put key value).1 = .ok () ∧
    (wb.put key value).2.operations
        = wb.operations ++ [.put key value none] := by
  refine ⟨?_, ?_, rfl, rfl⟩
  · intro h
    simp [AgateWriteBatch.should_write_to_engine, h, WRITE_BATCH_MAX_KEYS]
  · intro h
    simp [AgateWriteBatch.should_write_to_engine, h, WRITE_BATCH_MAX_KEYS]

set_option maxRecDepth 8000 in
/-- C5 witness: concrete batches with 128 and 129 buffered records either
side of the threshold, and a put appending past it. -/
theorem claim_C5_witness :
    (AgateWriteBatch.mk (List.replicate 128 (.put [] [] none)) []).count = 128 ∧
    (AgateWriteBatch.mk (List.replicate 128 (.put [] [] none)) []).should_write_to_engine
      = false ∧
    (AgateWriteBatch.mk (List.replicate 129 (.put [] [] none)) []).count = 129 ∧
    (AgateWriteBatch.mk (List.replicate 129 (.put [] [] none)) []).should_write_to_engine
      = true ∧
    ((AgateWriteBatch.mk (List.replicate 129 (.put [] [] none)) []).put [] []).2.operations
      = List.replicate 129 (.put [] [] none) ++ [.put [] [] none] := by
  have h128 := (claim_C5 (AgateWriteBatch.mk (List.replicate 128 (.put [] [] none)) []) [] []).1
  have h129 := (claim_C5 (AgateWriteBatch.mk (List.replicate 129 (.put [] [] none)) []) [] []).2.1
  have happ := (claim_C5 (AgateWriteBatch.mk (List.replicate 129 (.put [] [] none)) []) [] []).2.2.2
  exact ⟨by decide, h128 (by decide), by decide, h129 (by decide), happ⟩

/-- `AgateEngine`: the engine facade.  `cf_names` is the fixed set declared
at open time (`HashSet<String>`, always containing `CF_DEFAULT`); `store`
is the underlying `agatedb` keyspace. -/
structure AgateEngine where
  store : Store
  cf_names : List (List Nat)
  deriving DecidableEq

/-- `AgateEngine::new`: opens an empty keyspace with the declared families
plus the implicit default family. -/
def AgateEngine.new (cfs : List (List Nat)) : AgateEngine :=
  ⟨[], CF_DEFAULT :: cfs⟩

/-- `AgateEngine::check_cf_exist`: membership in the fixed declared set;
`Error::CFName` otherwise. -/
def AgateEngine.check_cf_exist (e : AgateEngine) (cf : List Nat) :
    Except EngineError Unit :=
  if cf ∈ e.cf_names then .ok () else .error (.cfName cf)

/-- `Peekable::get_value_opt` on the engine: read transaction, `txn.get`
on the default-prefixed key; `Err(KeyNotFound)` is mapped to `Ok(None)`
(`storeGet` returning `none` models `KeyNotFound`). -/
def AgateEngine.get_value_opt (e : AgateEngine) (key : List Nat) :
    Except EngineError (Option (List Nat)) :=
  .ok (storeGet e.store ( add_cf_prefix key none))

/-- `Peekable::get_value_cf_opt` on the engine: `check_cf_exist` first,
then as `get_value_opt` with the named family's prefix. -/
def AgateEngine.get_value_cf_opt (e : AgateEngine) (cf key : List Nat) :
    Except EngineError (Option (List Nat)) :=
  match e.check_cf_exist cf with
  | .error err => .error err
  | .ok () => .ok (storeGet e.store ( add_cf_prefix key (some cf)))

/-- `SyncMutable::put`: one transaction containing exactly one `set`,
committed immediately. -/
def AgateEngine.put (e : AgateEngine) (key value : List Nat) :
    Except EngineError Unit × AgateEngine :=
  (.ok (), { e with store := storeSet e.store ( add_cf_prefix key none) value })

/-- `SyncMutable::put_cf`: `check_cf_exist` before any transaction; on an
unknown family the error is returned with no storage mutation. -/
def AgateEngine.put_cf (e : AgateEngine) (cf key value : List Nat) :
    Except EngineError Unit × AgateEngine :=
  match e.check_cf_exist cf with
  | .error err => (.error err, e)
  | .ok () =>
    (.ok (), { e with store := storeSet e.store ( add_cf_prefix key (some cf)) value })

/-- `SyncMutable::delete`. -/
def AgateEngine.delete (e : AgateEngine) (key : List Nat) :
    Except EngineError Unit × AgateEngine :=
  (.ok (), { e with store := storeDel e.store ( add_cf_prefix key none) })

/-- `SyncMutable::delete_cf`: `check_cf_exist` before any transaction. -/
def AgateEngine.delete_cf (e : AgateEngine) (cf key : List Nat) :
    Except EngineError Unit × AgateEngine :=
  match e.check_cf_exist cf with
  | .error err => (.error err, e)
  | .ok () =>
    (.ok (), { e with store := storeDel e.store ( add_cf_prefix key (some cf)) })

/-- `AgateSnapshot`: a read transaction capturing a point-in-time view of
the keyspace, plus a copy of the declared family names. -/
structure AgateSnapshot where
  store : Store
  cf_names : List (List Nat)
  deriving DecidableEq

/-- `AgateSnapshot::new`. -/
def AgateSnapshot.new (e : AgateEngine) : AgateSnapshot := ⟨e.store, e.cf_names⟩

/-- `AgateSnapshot::check_cf_exist`. -/
def AgateSnapshot.check_cf_exist (s : AgateSnapshot) (cf : List Nat) :
    Except EngineError Unit :=
  if cf ∈ s.cf_names then .ok () else .error (.cfName cf)

/-- `Peekable::get_value_opt` on a snapshot; `Err(KeyNotFound)` is mapped
to `Ok(None)`. -/
def AgateSnapshot.get_value_opt (s : AgateSnapshot) (key : List Nat) :
    Except EngineError (Option (List Nat)) :=
  .ok (storeGet s.store ( add_cf_prefix key none))

/-- `Peekable::get_value_cf_opt` on a snapshot. -/
def AgateSnapshot.get_value_cf_opt (s : AgateSnapshot) (cf key : List Nat) :
    Except EngineError (Option (List Nat)) :=
  match s.check_cf_exist cf with
  | .error err => .error err
  | .ok () => .ok (storeGet s.store ( add_cf_prefix key (some cf)))

/-- C10: a point get of an absent key is not an error: on both the engine
facade and a snapshot, `get_value_opt` returns `Ok(None)` when the
default-prefixed key is absent, and `get_value_cf_opt` returns `Ok(None)`
for every declared family whose prefixed key is absent (the underlying
`KeyNotFound` is mapped to `None`, not surfaced as a failure). -/
theorem claim_C10 (e : AgateEngine) (snap : AgateSnapshot) (cf key : List Nat) :
    (storeGet e.store ( add_cf_prefix key none) = none →
      e.get_value_opt key = .ok none) ∧
    (cf ∈ e.cf_names → storeGet e.store ( add_cf_prefix key (some cf)) = none →
      e.get_value_cf_opt cf key = .ok none) ∧
    (storeGet snap.store ( add_cf_prefix key none) = none →
      snap.get_value_opt key = .ok none) ∧
    (cf ∈ snap.cf_names → storeGet snap.store ( add_cf_prefix key (some cf)) = none →
      snap.get_value_cf_opt cf key = .ok none) := by
  refine ⟨?_, ?_, ?_, ?_⟩
  · intro h
    unfold AgateEngine.get_value_opt
    rw [h]
  · intro hcf h
    unfold AgateEngine.get_value_cf_opt AgateEngine.check_cf_exist
    rw [if_pos hcf, h]
  · intro h
    unfold AgateSnapshot.get_value_opt
    rw [h]
  · intro hcf h
    unfold AgateSnapshot.get_value_cf_opt AgateSnapshot.check_cf_exist
    rw [if_pos hcf, h]

/-- C10 witness: an engine holding one unrelated key and declaring the
family `"cf"`, and its snapshot; gets of the absent key `"k"` return
`Ok(None)` on all four entry points. -/
theorem claim_C10_witness :
    storeGet [( add_cf_prefix (asc "other") none, asc "v")]
        ( add_cf_prefix (asc "k") none) = none ∧
    (asc "cf") ∈ (AgateEngine.mk [( add_cf_prefix (asc "other") none, asc "v")]
        [CF_DEFAULT, asc "cf"]).cf_names ∧
    AgateEngine.get_value_opt
        (AgateEngine.mk [( add_cf_prefix (asc "other") none, asc "v")]
          [CF_DEFAULT, asc "cf"]) (asc "k") = .ok none ∧
    AgateEngine.get_value_cf_opt
        (AgateEngine.mk [( add_cf_prefix (asc "other") none, asc "v")]
          [CF_DEFAULT, asc "cf"]) (asc "cf") (asc "k") = .ok none ∧
    AgateSnapshot.get_value_cf_opt
        (AgateSnapshot.new (AgateEngine.mk [( add_cf_prefix (asc "other") none, asc "v")]
          [CF_DEFAULT, asc "cf"])) (asc "cf") (asc "k") = .ok none := by
  obtain ⟨h1, h2, _, h4⟩ :=
    claim_C10
      (AgateEngine.mk [( add_cf_prefix (asc "other") none, asc "v")]
        [CF_DEFAULT, asc "cf"])
      (AgateSnapshot.new (AgateEngine.mk [( add_cf_prefix (asc "other") none, asc "v")]
        [CF_DEFAULT, asc "cf"]))
      (asc "cf") (asc "k")
  exact ⟨by decide, by decide, h1 (by decide), h2 (by decide) (by decide),
    h4 (by decide) (by decide)⟩

/-- C2: demonstration of the missing replay-time validation.  The facade
entry point `put_cf` does validate: against an engine declaring only the
default family, a put to the undeclared family `"foo"` fails with
`Error::CFName` and leaves the store untouched.  But replaying a write
batch containing the same mutation through `write()` performs no
column-family check (the source carries `TODO: Check if cf exists.`): it
returns `Ok` and commits the key under the undeclared family's prefix. -/
theorem claim_C2 :
    AgateEngine.put_cf (AgateEngine.new []) (asc "foo") (asc "k") (asc "v")
      = (.error (.cfName (asc "foo")), AgateEngine.new []) ∧
    (asc "foo") ∉ (AgateEngine.new []).cf_names ∧
    write_opt (AgateWriteBatch.mk [.put (asc "k") (asc "v") (some (asc "foo"))] []) []
      = (.ok (), [( add_cf_prefix (asc "k") (some (asc "foo")), asc "v")]) :=
  ⟨rfl, by decide, rfl⟩

/-- The native `agatedb` cursor over the ordered keyspace (the external
collaborator's iterator): a position into the ordered entry list.  It is
valid exactly when the position lies inside the list; `next`/`prev` move
one physical position; `seek` lands on the first key not below the target
(one past the end, hence invalid, if there is none). -/
structure NativeIter where
  entries : List (List Nat × List Nat)
  pos : Int
  deriving DecidableEq

def NativeIter.valid (it : NativeIter) : Bool :=
  decide (0 ≤ it.pos) && decide (it.pos < (it.entries.length : Int))

/-- `iter.item().key()` at the current (valid) position. -/
def NativeIter.curKey (it : NativeIter) : List Nat :=
  (it.entries.getD it.pos.toNat ([], [])).1

/-- `iter.item().value()` at the current (valid) position. -/
def NativeIter.curValue (it : NativeIter) : List Nat :=
  (it.entries.getD it.pos.toNat ([], [])).2

def NativeIter.next (it : NativeIter) : NativeIter := { it with pos := it.pos + 1 }

def NativeIter.prev (it : NativeIter) : NativeIter := { it with pos := it.pos - 1 }

def NativeIter.seek (it : NativeIter) (target : List Nat) : NativeIter :=
  { it with pos := (it.entries.findIdx fun e => !(lexLt e.1 target) : Nat) }

/-- `AgateEngineIterator`: the bounded cursor adapting the native cursor
with a column family and the caller's `IterOptions` bounds. -/
structure AgateEngineIterator where
  iter : NativeIter
  lower_bound : Option (List Nat)
  upper_bound : Option (List Nat)
  cf_name : Option (List Nat)
  deriving DecidableEq

/-- `Iterator::valid` for `AgateEngineIterator` (the source always returns
`Ok(..)`, so it is modelled as the boolean): the native cursor is
positioned, the decoded family matches the cursor's family (default when
none), and the decoded logical key respects the non-empty lower/upper
bounds. -/
def AgateEngineIterator.valid (it : AgateEngineIterator) : Bool :=
  if !it.iter.valid then false
  else
    let dec := get_cf_and_key it.iter.curKey
    let cf_name_match :=
      match it.cf_name with
      | some c => dec.1 == c
      | none => dec.1 == CF_DEFAULT
    if !cf_name_match then false
    else if (match it.lower_bound with
        | some lower => !lower.isEmpty && lexLt dec.2 lower
        | none => false) then false
    else if (match it.upper_bound with
        | some upper => !upper.isEmpty && !(lexLt dec.2 upper)
        | none => false) then false
    else true

/-- `Iterator::next` for `AgateEngineIterator`: an error when the *native*
cursor is invalid, otherwise advance one physical position and return the
new bounded validity. -/
def AgateEngineIterator.next (it : AgateEngineIterator) :
    Except EngineError Bool × AgateEngineIterator :=
  if !it.iter.valid then (.error (.engine "Iterator invalid"), it)
  else
    let stepped : AgateEngineIterator := { it with iter := it.iter.next }
    (.ok stepped.valid, stepped)

/-- `Iterator::prev` for `AgateEngineIterator`, symmetric to `next`. -/
def AgateEngineIterator.prev (it : AgateEngineIterator) :
    Except EngineError Bool × AgateEngineIterator :=
  if !it.iter.valid then (.error (.engine "Iterator invalid"), it)
  else
    let stepped : AgateEngineIterator := { it with iter := it.iter.prev }
    (.ok stepped.valid, stepped)

/-- C9 (amended): `next`/`prev` report the cursor-misuse error exactly
when the underlying *native* cursor is not positioned (it has run off
either end of the physical keyspace); when the native cursor is positioned
but the bounded cursor is exhausted for its column family or bounds
(`valid()` false), `next`/`prev` do not error: they advance one position
and return the new validity.  (The unamended claim — an error for *every*
exhausted cursor — is refuted by `claim_C9_counterexample`.) -/
theorem claim_C9 (it : AgateEngineIterator) :
    (it.iter.valid = false →
      it.next = (.error (.engine "Iterator invalid"), it) ∧
      it.prev = (.error (.engine "Iterator invalid"), it)) ∧
    (it.iter.valid = true →
      it.next = (.ok ({ it with iter := it.iter.next } : AgateEngineIterator).valid,
                 { it with iter := it.iter.next }) ∧
      it.prev = (.ok ({ it with iter := it.iter.prev } : AgateEngineIterator).valid,
                 { it with iter := it.iter.prev })) := by
  constructor
  · intro h
    constructor
    · unfold AgateEngineIterator.next
      rw [h]
      rfl
    · unfold AgateEngineIterator.prev
      rw [h]
      rfl
  · intro h
    constructor
    · unfold AgateEngineIterator.next
      rw [h]
      rfl
    · unfold AgateEngineIterator.prev
      rw [h]
      rfl

/-- C9 witness: concrete instances of both branches of the amended claim:
a cursor whose native position has run past the end errors on `next`, and
a natively positioned cursor steps without error. -/
theorem claim_C9_witness :
    (AgateEngineIterator.mk ⟨[( add_cf_prefix (asc "a") none, asc "v")], 1⟩
        none none none).iter.valid = false ∧
    (AgateEngineIterator.mk ⟨[( add_cf_prefix (asc "a") none, asc "v")], 1⟩
        none none none).next
      = (.error (.engine "Iterator invalid"),
         AgateEngineIterator.mk ⟨[( add_cf_prefix (asc "a") none, asc "v")], 1⟩
           none none none) ∧
    (AgateEngineIterator.mk ⟨[( add_cf_prefix (asc "a") none, asc "v")], 0⟩
        none none none).iter.valid = true ∧
    (AgateEngineIterator.mk ⟨[( add_cf_prefix (asc "a") none, asc "v")], 0⟩
        none none none).next
      = (.ok false,
         AgateEngineIterator.mk ⟨[( add_cf_prefix (asc "a") none, asc "v")], 1⟩
           none none none) := by
  have h1 :=
    (claim_C9 (AgateEngineIterator.mk ⟨[( add_cf_prefix (asc "a") none, asc "v")], 1⟩
      none none none)).1 (by decide)
  have h2 :=
    (claim_C9 (AgateEngineIterator.mk ⟨[( add_cf_prefix (asc "a") none, asc "v")], 0⟩
      none none none)).2 (by decide)
  exact ⟨by decide, h1.1, by decide, h2.1⟩

/-- C9 counterexample: a bounded cursor positioned (natively) on an entry
of a *different* column family is exhausted in the claim's sense
(`valid()` is false), yet `next` does not return an error: it returns
`Ok(false)`. -/
theorem claim_C9_counterexample :
    (AgateEngineIterator.mk ⟨[( add_cf_prefix (asc "a") none, asc "v")], 0⟩
        none none (some (asc "cf"))).valid = false ∧
    ((AgateEngineIterator.mk ⟨[( add_cf_prefix (asc "a") none, asc "v")], 0⟩
        none none (some (asc "cf"))).next).1 = .ok false :=
  ⟨rfl, rfl⟩

theorem lexLt_irrefl : ∀ a : List Nat, lexLt a a = false
  | [] => rfl
  | x :: as => by
    rw [lexLt]
    simp [lexLt_irrefl as]

theorem lexLt_asymm : ∀ a b : List Nat, lexLt a b = true → lexLt b a = false
  | [], [], h => by simp [lexLt] at h
  | [], _ :: _, _ => rfl
  | _ :: _, [], h => by simp [lexLt] at h
  | x :: as, y :: bs, h => by
    rw [lexLt] at h ⊢
    rcases Bool.or_eq_true_iff.mp h with hlt | heq
    · have hxy : x < y := by simpa using hlt
      simp [Nat.lt_asymm hxy, Nat.ne_of_gt hxy]
    · obtain ⟨hx, hr⟩ := Bool.and_eq_true_iff.mp heq
      have hx' : x = y := by simpa using hx
      subst hx'
      simp [Nat.lt_irrefl, lexLt_asymm as bs (by simpa using hr)]

theorem lexLt_ne {a b : List Nat} (h : lexLt a b = true) : a ≠ b := by
  intro heq
  subst heq
  rw [lexLt_irrefl] at h
  exact Bool.false_ne_true h

theorem lexLt_of_not_lt_ne : ∀ a b : List Nat,
    lexLt a b = false → a ≠ b → lexLt b a = true
  | [], [], _, hne => absurd rfl hne
  | [], _ :: _, h, _ => by simp [lexLt] at h
  | _ :: _, [], _, _ => rfl
  | x :: as, y :: bs, h, hne => by
    rw [lexLt] at h ⊢
    simp only [Bool.or_eq_false_iff, Bool.and_eq_false_iff] at h
    obtain ⟨hlt, heq⟩ := h
    have hxy : ¬ x < y := by simpa using hlt
    by_cases hx : x = y
    · subst hx
      have hrest : lexLt as bs = false := by
        rcases heq with h1 | h1
        · simp at h1
        · exact h1
      have hne' : as ≠ bs := fun hab => hne (by rw [hab])
      simp [Nat.lt_irrefl, lexLt_of_not_lt_ne as bs hrest hne']
    · have : y < x := by omega
      simp [this]

theorem lexLt_nil_right : ∀ a : List Nat, lexLt a [] = false
  | [] => rfl
  | _ :: _ => rfl

theorem add_cf_prefix_ne_nil (key : List Nat) (cf : Option (List Nat)) :
    add_cf_prefix key cf ≠ [] := by
  unfold add_cf_prefix
  rw [show DELIMITER = [64, 33, 64] from rfl]
  simp

/-- `agatedb::value::VALUE_DELETE`, the tombstone bit in a value's meta. -/
def VALUE_DELETE : Nat := 1

/-- `sst.rs` `SST_USER_META` (`1 << 2`). -/
def SST_USER_META : Nat := 4

/-- An `agatedb::Value` as stored in a table: payload bytes, meta bit
flags, user meta. -/
structure SstValue where
  value : List Nat
  meta : Nat
  user_meta : Nat
  deriving DecidableEq

/-- A live (non-tombstoned) table entry: `value.meta & VALUE_DELETE == 0`. -/
def liveEntry (e : List Nat × SstValue) : Bool :=
  e.2.meta &&& VALUE_DELETE == 0

/-- `AgateSstWriter`: a `TableBuilder` (entries in insertion order), the
configured column family, and the last accepted physical key (`Bytes::new()`,
i.e. empty, before the first append). -/
structure AgateSstWriter where
  cf_name : Option (List Nat)
  entries : List (List Nat × SstValue)
  last_key : List Nat
  deriving DecidableEq

/-- `AgateSstWriterBuilder::build`: fresh builder, empty `last_key`. -/
def AgateSstWriter.build (cf_name : Option (List Nat)) : AgateSstWriter :=
  ⟨cf_name, [], []⟩

/-- `SstWriter::put`: encode with the writer's family; reject (appending
nothing) any key less than or equal to the previously accepted key; append
a live value (`meta = 0`, `user_meta = SST_USER_META`). -/
def AgateSstWriter.put (w : AgateSstWriter) (key val : List Nat) :
    Except EngineError Unit × AgateSstWriter :=
  let k := add_cf_prefix key w.cf_name
  if !w.last_key.isEmpty && lexLe k w.last_key then
    (.error (.engine "Key not in order"), w)
  else
    (.ok (), { w with entries := w.entries ++ [(k, ⟨val, 0, SST_USER_META⟩)],
                      last_key := k })

/-- `SstWriter::delete`: as `put`, but the appended value is an empty
payload carrying the `VALUE_DELETE` tombstone bit. -/
def AgateSstWriter.delete (w : AgateSstWriter) (key : List Nat) :
    Except EngineError Unit × AgateSstWriter :=
  let k := add_cf_prefix key w.cf_name
  if !w.last_key.isEmpty && lexLe k w.last_key then
    (.error (.engine "Key not in order"), w)
  else
    (.ok (), { w with entries := w.entries ++ [(k, ⟨[], VALUE_DELETE, SST_USER_META⟩)],
                      last_key := k })

/-- One `put`/`delete` call in a caller's sequence against an SST writer. -/
inductive SstOp
  | putOp (key value : List Nat)
  | deleteOp (key : List Nat)
  deriving DecidableEq

/-- Apply one writer call, keeping the writer unchanged when the call
returns the ordering error (as the source does: the error returns before
`builder.add`). -/
def applySstOp (w : AgateSstWriter) : SstOp → AgateSstWriter
  | .putOp k v => (w.put k v).2
  | .deleteOp k => (w.delete k).2

/-- A whole sequence of `put`/`delete` calls against a fresh writer. -/
def runSstOps (cf_name : Option (List Nat)) (ops : List SstOp) : AgateSstWriter :=
  ops.foldl applySstOp (AgateSstWriter.build cf_name)

/-- The writer invariant: its entry keys are strictly increasing, and
`last_key` is the last entry's key (empty exactly before any append). -/
def WriterInv (w : AgateSstWriter) : Prop :=
  List.Chain' (fun a b => lexLt a b = true) (w.entries.map Prod.fst) ∧
  ((w.entries = [] ∧ w.last_key = []) ∨
    ((w.entries.map Prod.fst).getLast? = some w.last_key ∧ w.last_key ≠ []))

theorem WriterInv.append {w : AgateSstWriter} (hw : WriterInv w) (k : List Nat)
    (v : SstValue) (hk : k ≠ [])
    (hguard : (!w.last_key.isEmpty && lexLe k w.last_key) = false) :
    WriterInv ⟨w.cf_name, w.entries ++ [(k, v)], k⟩ := by
  obtain ⟨hchain, hlast⟩ := hw
  refine ⟨?_, Or.inr ⟨by rw [List.map_append]; exact List.getLast?_concat _, hk⟩⟩
  rw [List.map_append, List.chain'_append]
  refine ⟨hchain, List.chain'_singleton _, ?_⟩
  intro x hx y hy
  simp only [List.map_cons, List.map_nil, List.head?_cons, Option.mem_def,
    Option.some.injEq] at hy
  subst hy
  rcases hlast with ⟨he, _⟩ | ⟨hl, hne⟩
  · rw [he] at hx
    simp at hx
  · rw [hl] at hx
    simp only [Option.mem_def, Option.some.injEq] at hx
    subst hx
    have hie : w.last_key.isEmpty = false := by
      cases hlk : w.last_key
      · exact absurd hlk hne
      · rfl
    rw [hie] at hguard
    simp only [Bool.not_false, Bool.true_and] at hguard
    unfold lexLe at hguard
    simp only [Bool.or_eq_false_iff, beq_eq_false_iff_ne, ne_eq] at hguard
    exact lexLt_of_not_lt_ne _ _ hguard.1 hguard.2

theorem applySstOp_inv {w : AgateSstWriter} (hw : WriterInv w) (op : SstOp) :
    WriterInv (applySstOp w op) := by
  cases op with
  | putOp k v =>
    show WriterInv (w.put k v).2
    unfold AgateSstWriter.put
    by_cases hg : (!w.last_key.isEmpty && lexLe ( add_cf_prefix k w.cf_name) w.last_key) = true
    · rw [if_pos hg]
      exact hw
    · rw [if_neg hg]
      exact hw.append _ _ (add_cf_prefix_ne_nil k w.cf_name)
        (Bool.not_eq_true _ ▸ Bool.of_not_eq_true hg)
  | deleteOp k =>
    show WriterInv (w.delete k).2
    unfold AgateSstWriter.delete
    by_cases hg : (!w.last_key.isEmpty && lexLe ( add_cf_prefix k w.cf_name) w.last_key) = true
    · rw [if_pos hg]
      exact hw
    · rw [if_neg hg]
      exact hw.append _ _ (add_cf_prefix_ne_nil k w.cf_name)
        (Bool.of_not_eq_true hg)

theorem runSstOps_inv (cf_name : Option (List Nat)) (ops : List SstOp) :
    WriterInv (runSstOps cf_name ops) := by
  have hstart : WriterInv (AgateSstWriter.build cf_name) :=
    ⟨List.chain'_nil, Or.inl ⟨rfl, rfl⟩⟩
  unfold runSstOps
  generalize AgateSstWriter.build cf_name = w0 at hstart ⊢
  induction ops generalizing w0 with
  | nil => exact hstart
  | cons op rest ih => exact ih _ (applySstOp_inv hstart op)

/-- C7: SST writer ordering.  A `put` or `delete` whose encoded physical
key is less than or equal to the previously accepted key (`last_key`
non-empty) returns the key-order error and appends nothing; a strictly
greater encoded key is accepted and appended (live for `put`, tombstoned
for `delete`); consequently the entries of any table built by a sequence
of calls from a fresh writer are in strictly increasing physical-key
order. -/
theorem claim_C7 (w : AgateSstWriter) (key val : List Nat)
    (cf_name : Option (List Nat)) (ops : List SstOp) :
    (w.last_key ≠ [] → lexLe ( add_cf_prefix key w.cf_name) w.last_key = true →
      w.put key val = (.error (.engine "Key not in order"), w) ∧
      w.delete key = (.error (.engine "Key not in order"), w)) ∧
    (lexLt w.last_key ( add_cf_prefix key w.cf_name) = true →
      w.put key val
        = (.ok (), ⟨w.cf_name,
            w.entries ++ [( add_cf_prefix key w.cf_name, ⟨val, 0, SST_USER_META⟩)],
            add_cf_prefix key w.cf_name⟩) ∧
      w.delete key
        = (.ok (), ⟨w.cf_name,
            w.entries ++ [( add_cf_prefix key w.cf_name, ⟨[], VALUE_DELETE, SST_USER_META⟩)],
            add_cf_prefix key w.cf_name⟩)) ∧
    List.Chain' (fun a b => lexLt a b = true)
      ((runSstOps cf_name ops).entries.map Prod.fst) := by
  have hie : w.last_key ≠ [] → w.last_key.isEmpty = false := by
    intro hne
    cases hlk : w.last_key
    · exact absurd hlk hne
    · rfl
  refine ⟨?_, ?_, (runSstOps_inv cf_name ops).1⟩
  · intro hne hle
    have hg : (!w.last_key.isEmpty && lexLe ( add_cf_prefix key w.cf_name) w.last_key)
        = true := by
      rw [hie hne, hle]
      rfl
    constructor
    · unfold AgateSstWriter.put
      rw [if_pos hg]
    · unfold AgateSstWriter.delete
      rw [if_pos hg]
  · intro hlt
    have hg : (!w.last_key.isEmpty && lexLe ( add_cf_prefix key w.cf_name) w.last_key)
        = false := by
      cases hlk : w.last_key.isEmpty
      · have hle : lexLe ( add_cf_prefix key w.cf_name) w.last_key = false := by
          unfold lexLe
          rw [lexLt_asymm _ _ hlt]
          have : add_cf_prefix key w.cf_name ≠ w.last_key :=
            fun h => lexLt_ne hlt h.symm
          simp [this]
        simp [hle]
      · rfl
    constructor
    · unfold AgateSstWriter.put
      rw [if_neg (by rw [hg]; exact Bool.false_ne_true)]
    · unfold AgateSstWriter.delete
      rw [if_neg (by rw [hg]; exact Bool.false_ne_true)]

/-- C7 witness: a writer that last accepted key `"b"` in family `"cf"`:
`put "a"` is rejected without appending, `put "c"` is accepted and
appended, and a concrete call sequence (including a rejected out-of-order
key) yields strictly increasing entries. -/
theorem claim_C7_witness :
    ( add_cf_prefix (asc "b") (some (asc "cf")) ≠ []) ∧
    lexLe ( add_cf_prefix (asc "a") (some (asc "cf")))
        ( add_cf_prefix (asc "b") (some (asc "cf"))) = true ∧
    (AgateSstWriter.mk (some (asc "cf"))
        [( add_cf_prefix (asc "b") (some (asc "cf")), ⟨asc "v", 0, 4⟩)]
        ( add_cf_prefix (asc "b") (some (asc "cf")))).put (asc "a") (asc "w")
      = (.error (.engine "Key not in order"),
         AgateSstWriter.mk (some (asc "cf"))
           [( add_cf_prefix (asc "b") (some (asc "cf")), ⟨asc "v", 0, 4⟩)]
           ( add_cf_prefix (asc "b") (some (asc "cf")))) ∧
    lexLt ( add_cf_prefix (asc "b") (some (asc "cf")))
        ( add_cf_prefix (asc "c") (some (asc "cf"))) = true ∧
    (AgateSstWriter.mk (some (asc "cf"))
        [( add_cf_prefix (asc "b") (some (asc "cf")), ⟨asc "v", 0, 4⟩)]
        ( add_cf_prefix (asc "b") (some (asc "cf")))).put (asc "c") (asc "w")
      = (.ok (),
         AgateSstWriter.mk (some (asc "cf"))
           [( add_cf_prefix (asc "b") (some (asc "cf")), ⟨asc "v", 0, 4⟩),
            ( add_cf_prefix (asc "c") (some (asc "cf")), ⟨asc "w", 0, 4⟩)]
           ( add_cf_prefix (asc "c") (some (asc "cf")))) ∧
    List.Chain' (fun a b => lexLt a b = true)
      ((runSstOps (some (asc "cf"))
        [.putOp (asc "b") (asc "v"), .putOp (asc "a") (asc "w"),
         .deleteOp (asc "c")]).entries.map Prod.fst) := by
  obtain ⟨herr, _⟩ :=
    claim_C7 (AgateSstWriter.mk (some (asc "cf"))
        [( add_cf_prefix (asc "b") (some (asc "cf")), ⟨asc "v", 0, 4⟩)]
        ( add_cf_prefix (asc "b") (some (asc "cf")))) (asc "a") (asc "w")
      (some (asc "cf")) []
  obtain ⟨_, hacc, _⟩ :=
    claim_C7 (AgateSstWriter.mk (some (asc "cf"))
        [( add_cf_prefix (asc "b") (some (asc "cf")), ⟨asc "v", 0, 4⟩)]
        ( add_cf_prefix (asc "b") (some (asc "cf")))) (asc "c") (asc "w")
      (some (asc "cf")) []
  obtain ⟨_, _, hchain⟩ :=
    claim_C7 (AgateSstWriter.build (some (asc "cf"))) [] [] (some (asc "cf"))
      [.putOp (asc "b") (asc "v"), .putOp (asc "a") (asc "w"),
       .deleteOp (asc "c")]
  exact ⟨by decide, by decide, (herr (by decide) (by decide)).1, by decide,
    (hacc (by decide)).1, hchain⟩

/-- The `agatedb` `TableIterator` over a sealed table's sorted entries (an
external collaborator): a position into the entry list; valid exactly when
the position lies inside the list; `seek` lands on the first key not below
the target (one past the end, hence invalid, if there is none). -/
structure TableIterator where
  entries : List (List Nat × SstValue)
  pos : Int
  deriving DecidableEq

def TableIterator.valid (t : TableIterator) : Bool :=
  decide (0 ≤ t.pos) && decide (t.pos < (t.entries.length : Int))

/-- `iter.key()` at the current (valid) position. -/
def TableIterator.curKey (t : TableIterator) : List Nat :=
  (t.entries.getD t.pos.toNat ([], ⟨[], 0, 0⟩)).1

/-- `iter.value()` at the current (valid) position. -/
def TableIterator.curValue (t : TableIterator) : SstValue :=
  (t.entries.getD t.pos.toNat ([], ⟨[], 0, 0⟩)).2

def TableIterator.next (t : TableIterator) : TableIterator := { t with pos := t.pos + 1 }

def TableIterator.prev (t : TableIterator) : TableIterator := { t with pos := t.pos - 1 }

def TableIterator.seek (t : TableIterator) (target : List Nat) : TableIterator :=
  { t with pos := (t.entries.findIdx fun e => !(lexLt e.1 target) : Nat) }

/-- The `cf_name_match` test shared by the reader paths: the decoded
family equals the requested one (default when none was requested). -/
def cfMatch (cf_name : Option (List Nat)) (decoded : List Nat) : Bool :=
  match cf_name with
  | some c => decoded == c
  | none => decoded == CF_DEFAULT

/-- `AgateSstReaderIterator`: table iterator, requested column family and
the cached value of the entry the cursor last settled on. -/
structure AgateSstReaderIterator where
  iter : TableIterator
  cf_name : Option (List Nat)
  current_value : SstValue
  deriving DecidableEq

/-- `AgateSstReaderIterator::update`: the internal loop run after every
repositioning.  While the position is valid and the decoded family
matches, a tombstoned value (`meta & VALUE_DELETE != 0`) is stepped over —
forward or backward according to `is_forward` — without the caller ever
observing it; the loop stops with `false` on an invalid position or a
foreign family, and with `true` on a live entry, caching its value. -/
def AgateSstReaderIterator.update (r : AgateSstReaderIterator) (is_forward : Bool) :
    Bool × AgateSstReaderIterator :=
  if r.iter.valid = false then (false, r)
  else
    let dec := get_cf_and_key r.iter.curKey
    if cfMatch r.cf_name dec.1 = false then (false, r)
    else
      let value := r.iter.curValue
      if value.meta &&& VALUE_DELETE ≠ 0 then
        if is_forward then
          AgateSstReaderIterator.update { r with iter := r.iter.next } true
        else
          AgateSstReaderIterator.update { r with iter := r.iter.prev } false
      else
        (true, { r with current_value := value })
  termination_by
    (if is_forward then ((r.iter.entries.length : Int) - r.iter.pos).toNat
     else (r.iter.pos + 1).toNat)
  decreasing_by
    · have hv : r.iter.valid = true := by
        cases h : r.iter.valid
        · simp_all
        · rfl
      unfold TableIterator.valid at hv
      simp only [Bool.and_eq_true, decide_eq_true_eq] at hv
      simp_all [TableIterator.next]
    · have hv : r.iter.valid = true := by
        cases h : r.iter.valid
        · simp_all
        · rfl
      unfold TableIterator.valid at hv
      simp only [Bool.and_eq_true, decide_eq_true_eq] at hv
      simp_all [TableIterator.prev]

theorem update_eq (r : AgateSstReaderIterator) (b : Bool) :
    r.update b =
      if r.iter.valid = false then (false, r)
      else if cfMatch r.cf_name (get_cf_and_key r.iter.curKey).1 = false then (false, r)
      else if r.iter.curValue.meta &&& VALUE_DELETE ≠ 0 then
        (if b then ({ r with iter := r.iter.next } : AgateSstReaderIterator).update true
         else ({ r with iter := r.iter.prev } : AgateSstReaderIterator).update false)
      else (true, { r with current_value := r.iter.curValue }) := by
  rw [AgateSstReaderIterator.update]

theorem update_fwd_mono (r : AgateSstReaderIterator) :
    (r.update true).2.iter.entries = r.iter.entries ∧
    r.iter.pos ≤ (r.update true).2.iter.pos ∧
    ((r.update true).1 = true → (r.update true).2.iter.valid = true) := by
  rw [update_eq]
  by_cases h1 : r.iter.valid = false
  · rw [if_pos h1]
    exact ⟨rfl, le_refl _, fun h => absurd h (by simp)⟩
  · rw [if_neg h1]
    by_cases h2 : cfMatch r.cf_name (get_cf_and_key r.iter.curKey).1 = false
    · rw [if_pos h2]
      exact ⟨rfl, le_refl _, fun h => absurd h (by simp)⟩
    · rw [if_neg h2]
      by_cases h3 : r.iter.curValue.meta &&& VALUE_DELETE ≠ 0
      · rw [if_pos h3]
        simp only [if_true]
        obtain ⟨he, hp, hv⟩ := update_fwd_mono { r with iter := r.iter.next }
        refine ⟨he, ?_, hv⟩
        refine le_trans ?_ hp
        show r.iter.pos ≤ r.iter.pos + 1
        omega
      · rw [if_neg h3]
        refine ⟨rfl, le_refl _, fun _ => ?_⟩
        cases hvv : r.iter.valid
        · exact absurd hvv h1
        · rfl
  termination_by ((r.iter.entries.length : Int) - r.iter.pos).toNat
  decreasing_by
    have hv : r.iter.valid = true := by
      cases h : r.iter.valid
      · exact absurd h h1
      · rfl
    unfold TableIterator.valid at hv
    simp only [Bool.and_eq_true, decide_eq_true_eq] at hv
    simp [TableIterator.next]
    omega

theorem update_bwd_mono (r : AgateSstReaderIterator) :
    (r.update false).2.iter.entries = r.iter.entries ∧
    (r.update false).2.iter.pos ≤ r.iter.pos ∧
    ((r.update false).1 = true → (r.update false).2.iter.valid = true) := by
  rw [update_eq]
  by_cases h1 : r.iter.valid = false
  · rw [if_pos h1]
    exact ⟨rfl, le_refl _, fun h => absurd h (by simp)⟩
  · rw [if_neg h1]
    by_cases h2 : cfMatch r.cf_name (get_cf_and_key r.iter.curKey).1 = false
    · rw [if_pos h2]
      exact ⟨rfl, le_refl _, fun h => absurd h (by simp)⟩
    · rw [if_neg h2]
      by_cases h3 : r.iter.curValue.meta &&& VALUE_DELETE ≠ 0
      · rw [if_pos h3]
        simp only [Bool.false_eq_true, if_false]
        obtain ⟨he, hp, hv⟩ := update_bwd_mono { r with iter := r.iter.prev }
        refine ⟨he, ?_, hv⟩
        refine le_trans hp ?_
        show r.iter.pos - 1 ≤ r.iter.pos
        omega
      · rw [if_neg h3]
        refine ⟨rfl, le_refl _, fun _ => ?_⟩
        cases hvv : r.iter.valid
        · exact absurd hvv h1
        · rfl
  termination_by (r.iter.pos + 1).toNat
  decreasing_by
    have hv : r.iter.valid = true := by
      cases h : r.iter.valid
      · exact absurd h h1
      · rfl
    unfold TableIterator.valid at hv
    simp only [Bool.and_eq_true, decide_eq_true_eq] at hv
    simp [TableIterator.prev]
    omega

/-- `Iterator::next` for the SST reader: error when the table iterator is
invalid; otherwise advance one entry and run the forward tombstone-skipping
`update`. -/
def AgateSstReaderIterator.next (r : AgateSstReaderIterator) :
    Except EngineError Bool × AgateSstReaderIterator :=
  if r.iter.valid = false then (.error (.engine "Iterator invalid"), r)
  else
    let p := ({ r with iter := r.iter.next } : AgateSstReaderIterator).update true
    (.ok p.1, p.2)

/-- `Iterator::prev` for the SST reader, symmetric to `next` with the
backward `update`. -/
def AgateSstReaderIterator.prev (r : AgateSstReaderIterator) :
    Except EngineError Bool × AgateSstReaderIterator :=
  if r.iter.valid = false then (.error (.engine "Iterator invalid"), r)
  else
    let p := ({ r with iter := r.iter.prev } : AgateSstReaderIterator).update false
    (.ok p.1, p.2)

/-- `seek(SeekKey::Start)` for the SST reader: seek the table iterator to
the encoding of the family's empty key, then run the forward `update`. -/
def AgateSstReaderIterator.seek_to_first (r : AgateSstReaderIterator) :
    Bool × AgateSstReaderIterator :=
  ({ r with iter := r.iter.seek ( add_cf_prefix [] r.cf_name) } :
    AgateSstReaderIterator).update true

theorem next_ok {r r' : AgateSstReaderIterator} {b : Bool}
    (h : r.next = (.ok b, r')) :
    r'.iter.entries = r.iter.entries ∧
    (b = true → r.iter.pos < r'.iter.pos ∧ r'.iter.valid = true) := by
  unfold AgateSstReaderIterator.next at h
  by_cases h1 : r.iter.valid = false
  · rw [if_pos h1] at h
    simp at h
  · rw [if_neg h1] at h
    rw [Prod.mk.injEq] at h
    obtain ⟨hb, hr⟩ := h
    injection hb with hb
    obtain ⟨he, hp, hv⟩ := update_fwd_mono { r with iter := r.iter.next }
    rw [hr] at he hp hv
    refine ⟨he, fun hbt => ⟨?_, hv (by rw [hb, hbt])⟩⟩
    have : r.iter.pos + 1 ≤ r'.iter.pos := hp
    omega

theorem prev_ok {r r' : AgateSstReaderIterator} {b : Bool}
    (h : r.prev = (.ok b, r')) :
    r'.iter.entries = r.iter.entries ∧
    (b = true → r'.iter.pos < r.iter.pos ∧ r'.iter.valid = true) := by
  unfold AgateSstReaderIterator.prev at h
  by_cases h1 : r.iter.valid = false
  · rw [if_pos h1] at h
    simp at h
  · rw [if_neg h1] at h
    rw [Prod.mk.injEq] at h
    obtain ⟨hb, hr⟩ := h
    injection hb with hb
    obtain ⟨he, hp, hv⟩ := update_bwd_mono { r with iter := r.iter.prev }
    rw [hr] at he hp hv
    refine ⟨he, fun hbt => ⟨?_, hv (by rw [hb, hbt])⟩⟩
    have : r'.iter.pos ≤ r.iter.pos - 1 := hp
    omega

/-- The `loop { let valid = self.next()?; if !valid break; }` inside
`seek(SeekKey::End)`: run `next` until it reports invalid (or errors),
carrying the mutated iterator state. -/
def AgateSstReaderIterator.seekEndLoop (r : AgateSstReaderIterator) :
    Except EngineError Unit × AgateSstReaderIterator :=
  match h : r.next with
  | (.ok true, r') => r'.seekEndLoop
  | (.ok false, r') => (.ok (), r')
  | (.error e, r') => (.error e, r')
  termination_by ((r.iter.entries.length : Int) - r.iter.pos).toNat
  decreasing_by
    obtain ⟨he, himp⟩ := next_ok h
    obtain ⟨hlt, hvalid⟩ := himp rfl
    unfold TableIterator.valid at hvalid
    simp only [Bool.and_eq_true, decide_eq_true_eq] at hvalid
    rw [he] at hvalid
    rw [he]
    omega

/-- `seek(SeekKey::End)` for the SST reader: seek to the start of the
family; if nothing is there report invalid; otherwise scan forward with
`next` until it leaves the live entries, step the table iterator back one,
and run the backward `update`. -/
def AgateSstReaderIterator.seek_to_end (r : AgateSstReaderIterator) :
    Except EngineError Bool × AgateSstReaderIterator :=
  match r.seek_to_first with
  | (false, r1) => (.ok false, r1)
  | (true, r1) =>
    match r1.seekEndLoop with
    | (.error e, r2) => (.error e, r2)
    | (.ok (), r2) =>
      let p := ({ r2 with iter := r2.iter.prev } : AgateSstReaderIterator).update false
      (.ok p.1, p.2)

/-- The caller's full forward traversal from a successfully positioned
cursor: record `key()`/`value()` (decoded logical key and cached live
value), call `next`, and continue while it returns `Ok(true)`. -/
def collectForward (r : AgateSstReaderIterator) : List (List Nat × List Nat) :=
  ((get_cf_and_key r.iter.curKey).2, r.current_value.value) ::
    (match h : r.next with
     | (.ok true, r') => collectForward r'
     | (.ok false, _) => []
     | (.error _, _) => [])
  termination_by ((r.iter.entries.length : Int) - r.iter.pos).toNat
  decreasing_by
    obtain ⟨he, himp⟩ := next_ok h
    obtain ⟨hlt, hvalid⟩ := himp rfl
    unfold TableIterator.valid at hvalid
    simp only [Bool.and_eq_true, decide_eq_true_eq] at hvalid
    rw [he] at hvalid
    rw [he]
    omega

/-- The caller's full backward traversal from a successfully positioned
cursor, using `prev`. -/
def collectBackward (r : AgateSstReaderIterator) : List (List Nat × List Nat) :=
  ((get_cf_and_key r.iter.curKey).2, r.current_value.value) ::
    (match h : r.prev with
     | (.ok true, r') => collectBackward r'
     | (.ok false, _) => []
     | (.error _, _) => [])
  termination_by (r.iter.pos + 1).toNat
  decreasing_by
    obtain ⟨he, himp⟩ := prev_ok h
    obtain ⟨hlt, hvalid⟩ := himp rfl
    unfold TableIterator.valid at hvalid
    simp only [Bool.and_eq_true, decide_eq_true_eq] at hvalid
    omega

/-- A fresh reader iterator over a sealed table for the requested family:
`table.new_iterator(0)` is unpositioned until the first seek (modelled by
position -1), `current_value` is `Value::default()`. -/
def mkReaderIterator (cf_name : Option (List Nat))
    (table : List (List Nat × SstValue)) : AgateSstReaderIterator :=
  ⟨⟨table, -1⟩, cf_name, ⟨[], 0, 0⟩⟩

/-- Full forward iteration of a table as a caller performs it:
`seek(SeekKey::Start)`, then `next` while valid, collecting the observed
(logical key, value) pairs. -/
def fullForward (cf_name : Option (List Nat))
    (table : List (List Nat × SstValue)) : List (List Nat × List Nat) :=
  match (mkReaderIterator cf_name table).seek_to_first with
  | (true, r) => collectForward r
  | (false, _) => []

/-- Full backward iteration of a table as a caller performs it:
`seek(SeekKey::End)`, then `prev` while valid. -/
def fullBackward (cf_name : Option (List Nat))
    (table : List (List Nat × SstValue)) : List (List Nat × List Nat) :=
  match (mkReaderIterator cf_name table).seek_to_end with
  | (.ok true, r) => collectBackward r
  | (.ok false, _) => []
  | (.error _, _) => []

/-- `AgateExternalSstFileInfo`: the sealed table behind a finished
writer. -/
structure AgateExternalSstFileInfo where
  entries : List (List Nat × SstValue)
  deriving DecidableEq

/-- `SstWriter::finish`: seal the builder's entries into a table. -/
def AgateSstWriter.finish (w : AgateSstWriter) : AgateExternalSstFileInfo :=
  ⟨w.entries⟩

/-- `smallest_key`: the logical part of the decoded first (smallest)
physical key of the table, tombstoned entries included. -/
def AgateExternalSstFileInfo.smallest_key (info : AgateExternalSstFileInfo) : List Nat :=
  (get_cf_and_key ((info.entries.head?.getD ([], ⟨[], 0, 0⟩)).1)).2

/-- `largest_key`: the logical part of the decoded last (biggest) physical
key of the table, tombstoned entries included. -/
def AgateExternalSstFileInfo.largest_key (info : AgateExternalSstFileInfo) : List Nat :=
  (get_cf_and_key ((info.entries.getLast?.getD ([], ⟨[], 0, 0⟩)).1)).2

/-- `num_entries`: the table's key count, tombstoned entries included. -/
def AgateExternalSstFileInfo.num_entries (info : AgateExternalSstFileInfo) : Nat :=
  info.entries.length

/-- Index of the first live (non-tombstoned) entry at or after position
`p`, if any — the position the forward `update` loop settles on. -/
def findLiveFrom (T : List (List Nat × SstValue)) (p : Nat) : Option Nat :=
  if h : p < T.length then
    if liveEntry (T.getD p ([], ⟨[], 0, 0⟩)) then some p else findLiveFrom T (p + 1)
  else none
  termination_by T.length - p

/-- Index of the last live entry at or before position `p`, if any — the
position the backward `update` loop settles on. -/
def findLiveDown (T : List (List Nat × SstValue)) (p : Int) : Option Nat :=
  if h : 0 ≤ p ∧ p < (T.length : Int) then
    if liveEntry (T.getD p.toNat ([], ⟨[], 0, 0⟩)) then some p.toNat
    else findLiveDown T (p - 1)
  else none
  termination_by (p + 1).toNat
  decreasing_by omega

theorem update_fwd_char (T : List (List Nat × SstValue)) (cf : Option (List Nat))
    (Hcf : ∀ e ∈ T, cfMatch cf (get_cf_and_key e.1).1 = true) :
    ∀ (p : Nat) (cv : SstValue), p ≤ T.length →
    (AgateSstReaderIterator.mk ⟨T, (p : Int)⟩ cf cv).update true =
      match findLiveFrom T p with
      | some q => (true, ⟨⟨T, (q : Int)⟩, cf, (T.getD q ([], ⟨[], 0, 0⟩)).2⟩)
      | none => (false, ⟨⟨T, (T.length : Int)⟩, cf, cv⟩)
  | p, cv, hp => by
    by_cases hlt : p < T.length
    · have hvalid : TableIterator.valid ⟨T, (p : Int)⟩ = true := by
        simp only [TableIterator.valid, Bool.and_eq_true, decide_eq_true_eq]
        omega
      have hcur : TableIterator.curKey ⟨T, (p : Int)⟩
          = (T.getD p ([], ⟨[], 0, 0⟩)).1 := by
        simp [TableIterator.curKey]
      have hcurv : TableIterator.curValue ⟨T, (p : Int)⟩
          = (T.getD p ([], ⟨[], 0, 0⟩)).2 := by
        simp [TableIterator.curValue]
      have hmem : T.getD p ([], ⟨[], 0, 0⟩) ∈ T := by
        rw [List.getD_eq_getElem _ _ hlt]
        exact List.getElem_mem hlt
      have hcf := Hcf _ hmem
      rw [update_eq]
      rw [if_neg (by rw [hvalid]; simp)]
      rw [show ((AgateSstReaderIterator.mk ⟨T, (p : Int)⟩ cf cv).iter.curKey)
          = (T.getD p ([], ⟨[], 0, 0⟩)).1 from hcur]
      rw [if_neg (by rw [hcf]; simp)]
      rw [show ((AgateSstReaderIterator.mk ⟨T, (p : Int)⟩ cf cv).iter.curValue)
          = (T.getD p ([], ⟨[], 0, 0⟩)).2 from hcurv]
      by_cases hlive : liveEntry (T.getD p ([], ⟨[], 0, 0⟩)) = true
      · have hnotdel : ¬((T.getD p ([], ⟨[], 0, 0⟩)).2.meta &&& VALUE_DELETE ≠ 0) := by
          unfold liveEntry at hlive
          simpa using hlive
        rw [if_neg hnotdel]
        rw [findLiveFrom]
        rw [dif_pos hlt, if_pos hlive]
      · have hdel : (T.getD p ([], ⟨[], 0, 0⟩)).2.meta &&& VALUE_DELETE ≠ 0 := by
          unfold liveEntry at hlive
          simpa using hlive
        rw [if_pos hdel]
        simp only [if_true]
        have hcast : ((p : Int) + 1) = ((p + 1 : Nat) : Int) := by
          push_cast
          ring
        have hstep : ({ AgateSstReaderIterator.mk ⟨T, (p : Int)⟩ cf cv with
            iter := (AgateSstReaderIterator.mk ⟨T, (p : Int)⟩ cf cv).iter.next }
              : AgateSstReaderIterator)
            = AgateSstReaderIterator.mk ⟨T, ((p + 1 : Nat) : Int)⟩ cf cv := by
          show AgateSstReaderIterator.mk ⟨T, (p : Int) + 1⟩ cf cv
            = AgateSstReaderIterator.mk ⟨T, ((p + 1 : Nat) : Int)⟩ cf cv
          rw [hcast]
        rw [hstep]
        rw [update_fwd_char T cf Hcf (p + 1) cv (by omega)]
        conv_rhs => rw [findLiveFrom]
        rw [dif_pos hlt, if_neg hlive]
    · have hpe : p = T.length := by omega
      subst hpe
      rw [update_eq]
      rw [if_pos (by simp [TableIterator.valid])]
      rw [findLiveFrom]
      rw [dif_neg (by omega)]
  termination_by p cv hp => T.length - p

theorem update_bwd_char (T : List (List Nat × SstValue)) (cf : Option (List Nat))
    (Hcf : ∀ e ∈ T, cfMatch cf (get_cf_and_key e.1).1 = true) :
    ∀ (p : Int) (cv : SstValue), -1 ≤ p → p < (T.length : Int) →
    (AgateSstReaderIterator.mk ⟨T, p⟩ cf cv).update false =
      match findLiveDown T p with
      | some q => (true, ⟨⟨T, (q : Int)⟩, cf, (T.getD q ([], ⟨[], 0, 0⟩)).2⟩)
      | none => (false, ⟨⟨T, -1⟩, cf, cv⟩)
  | p, cv, hp1, hp2 => by
    by_cases hge : 0 ≤ p
    · have hlt : p.toNat < T.length := by omega
      have hvalid : TableIterator.valid ⟨T, p⟩ = true := by
        simp only [TableIterator.valid, Bool.and_eq_true, decide_eq_true_eq]
        omega
      have hcur : TableIterator.curKey ⟨T, p⟩
          = (T.getD p.toNat ([], ⟨[], 0, 0⟩)).1 := by
        simp [TableIterator.curKey]
      have hcurv : TableIterator.curValue ⟨T, p⟩
          = (T.getD p.toNat ([], ⟨[], 0, 0⟩)).2 := by
        simp [TableIterator.curValue]
      have hmem : T.getD p.toNat ([], ⟨[], 0, 0⟩) ∈ T := by
        rw [List.getD_eq_getElem _ _ hlt]
        exact List.getElem_mem hlt
      have hcf := Hcf _ hmem
      rw [update_eq]
      rw [if_neg (by rw [hvalid]; simp)]
      rw [show ((AgateSstReaderIterator.mk ⟨T, p⟩ cf cv).iter.curKey)
          = (T.getD p.toNat ([], ⟨[], 0, 0⟩)).1 from hcur]
      rw [if_neg (by rw [hcf]; simp)]
      rw [show ((AgateSstReaderIterator.mk ⟨T, p⟩ cf cv).iter.curValue)
          = (T.getD p.toNat ([], ⟨[], 0, 0⟩)).2 from hcurv]
      by_cases hlive : liveEntry (T.getD p.toNat ([], ⟨[], 0, 0⟩)) = true
      · have hnotdel : ¬((T.getD p.toNat ([], ⟨[], 0, 0⟩)).2.meta &&& VALUE_DELETE ≠ 0) := by
          unfold liveEntry at hlive
          simpa using hlive
        rw [if_neg hnotdel]
        rw [findLiveDown]
        rw [dif_pos ⟨hge, by omega⟩, if_pos hlive]
        have hback : ((p.toNat : Int)) = p := by omega
        simp [hback]
      · have hdel : (T.getD p.toNat ([], ⟨[], 0, 0⟩)).2.meta &&& VALUE_DELETE ≠ 0 := by
          unfold liveEntry at hlive
          simpa using hlive
        rw [if_pos hdel]
        simp only [Bool.false_eq_true, if_false]
        rw [show ({ entries := T, pos := p } : TableIterator).prev = ⟨T, p - 1⟩ from rfl]
        rw [update_bwd_char T cf Hcf (p - 1) cv (by omega) (by omega)]
        conv_rhs => rw [findLiveDown]
        rw [dif_pos ⟨hge, by omega⟩, if_neg hlive]
    · have hpe : p = -1 := by omega
      subst hpe
      rw [update_eq]
      rw [if_pos (by simp [TableIterator.valid])]
      rw [findLiveDown]
      rw [dif_neg (by omega)]
  termination_by p cv hp1 hp2 => (p + 1).toNat
  decreasing_by omega

theorem findLiveFrom_none (T : List (List Nat × SstValue)) :
    ∀ p : Nat, findLiveFrom T p = none → (T.drop p).filter liveEntry = []
  | p, h => by
    rw [findLiveFrom] at h
    by_cases hlt : p < T.length
    · rw [dif_pos hlt] at h
      by_cases hlive : liveEntry (T.getD p ([], ⟨[], 0, 0⟩)) = true
      · rw [if_pos hlive] at h
        cases h
      · rw [if_neg hlive] at h
        rw [List.drop_eq_getElem_cons hlt]
        rw [List.filter_cons_of_neg (by rw [List.getD_eq_getElem _ _ hlt] at hlive; simpa using hlive)]
        exact findLiveFrom_none T (p + 1) h
    · rw [List.drop_eq_nil_of_le (by omega)]
      rfl
  termination_by p _ => T.length - p

theorem findLiveFrom_some (T : List (List Nat × SstValue)) :
    ∀ p q : Nat, findLiveFrom T p = some q →
      p ≤ q ∧ q < T.length ∧ liveEntry (T.getD q ([], ⟨[], 0, 0⟩)) = true ∧
      (T.drop p).filter liveEntry = (T.drop q).filter liveEntry
  | p, q, h => by
    rw [findLiveFrom] at h
    by_cases hlt : p < T.length
    · rw [dif_pos hlt] at h
      by_cases hlive : liveEntry (T.getD p ([], ⟨[], 0, 0⟩)) = true
      · rw [if_pos hlive] at h
        injection h with h
        subst h
        exact ⟨le_refl _, hlt, hlive, rfl⟩
      · rw [if_neg hlive] at h
        obtain ⟨h1, h2, h3, h4⟩ := findLiveFrom_some T (p + 1) q h
        refine ⟨by omega, h2, h3, ?_⟩
        rw [List.drop_eq_getElem_cons hlt]
        rw [List.filter_cons_of_neg (by rw [List.getD_eq_getElem _ _ hlt] at hlive; simpa using hlive)]
        exact h4
    · rw [dif_neg hlt] at h
      cases h
  termination_by p _ _ => T.length - p

theorem findLiveDown_none (T : List (List Nat × SstValue)) :
    ∀ p : Int, -1 ≤ p → p < (T.length : Int) → findLiveDown T p = none →
      (T.take (p + 1).toNat).filter liveEntry = []
  | p, hp1, hp2, h => by
    rw [findLiveDown] at h
    by_cases hge : 0 ≤ p
    · rw [dif_pos ⟨hge, hp2⟩] at h
      by_cases hlive : liveEntry (T.getD p.toNat ([], ⟨[], 0, 0⟩)) = true
      · rw [if_pos hlive] at h
        cases h
      · rw [if_neg hlive] at h
        have hlt : p.toNat < T.length := by omega
        have hih := findLiveDown_none T (p - 1) (by omega) (by omega) h
        have hsucc : (p + 1).toNat = p.toNat + 1 := by omega
        have hsub : (p - 1 + 1).toNat = p.toNat := by omega
        rw [hsub] at hih
        rw [hsucc, List.take_succ]
        rw [List.filter_append, hih]
        have hgetq : T[p.toNat]? = some (T.getD p.toNat ([], ⟨[], 0, 0⟩)) := by
          rw [List.getD_eq_getElem _ _ hlt]
          exact List.getElem?_eq_getElem hlt
        rw [hgetq]
        simp only [Option.toList_some]
        rw [List.filter_cons_of_neg (by simpa using hlive)]
        rfl
    · have hpe : p = -1 := by omega
      subst hpe
      rfl
  termination_by p _ _ _ => (p + 1).toNat
  decreasing_by omega

theorem findLiveDown_some (T : List (List Nat × SstValue)) :
    ∀ (p : Int) (q : Nat), -1 ≤ p → p < (T.length : Int) → findLiveDown T p = some q →
      (q : Int) ≤ p ∧ q < T.length ∧ liveEntry (T.getD q ([], ⟨[], 0, 0⟩)) = true ∧
      (T.take (p + 1).toNat).filter liveEntry = (T.take (q + 1)).filter liveEntry
  | p, q, hp1, hp2, h => by
    rw [findLiveDown] at h
    by_cases hge : 0 ≤ p
    · rw [dif_pos ⟨hge, hp2⟩] at h
      by_cases hlive : liveEntry (T.getD p.toNat ([], ⟨[], 0, 0⟩)) = true
      · rw [if_pos hlive] at h
        injection h with h
        subst h
        refine ⟨by omega, by omega, hlive, ?_⟩
        have : (p + 1).toNat = p.toNat + 1 := by omega
        rw [this]
      · rw [if_neg hlive] at h
        obtain ⟨h1, h2, h3, h4⟩ := findLiveDown_some T (p - 1) q (by omega) (by omega) h
        have hlt : p.toNat < T.length := by omega
        refine ⟨by omega, h2, h3, ?_⟩
        have hsucc : (p + 1).toNat = p.toNat + 1 := by omega
        have hsub : (p - 1 + 1).toNat = p.toNat := by omega
        rw [hsub] at h4
        rw [hsucc, List.take_succ]
        rw [List.filter_append]
        have hgetq : T[p.toNat]? = some (T.getD p.toNat ([], ⟨[], 0, 0⟩)) := by
          rw [List.getD_eq_getElem _ _ hlt]
          exact List.getElem?_eq_getElem hlt
        rw [hgetq]
        simp only [Option.toList_some]
        rw [List.filter_cons_of_neg (by simpa using hlive)]
        rw [h4]
        simp
    · rw [dif_neg (by omega)] at h
      cases h
  termination_by p _ _ _ _ => (p + 1).toNat
  decreasing_by omega

theorem collectForward_char (T : List (List Nat × SstValue)) (cf : Option (List Nat))
    (Hcf : ∀ e ∈ T, cfMatch cf (get_cf_and_key e.1).1 = true) :
    ∀ q : Nat, q < T.length → liveEntry (T.getD q ([], ⟨[], 0, 0⟩)) = true →
    collectForward ⟨⟨T, (q : Int)⟩, cf, (T.getD q ([], ⟨[], 0, 0⟩)).2⟩ =
      ((T.drop q).filter liveEntry).map (fun e => ((get_cf_and_key e.1).2, e.2.value))
  | q, hq, hlive => by
    have hvalid : TableIterator.valid ⟨T, (q : Int)⟩ = true := by
      simp only [TableIterator.valid, Bool.and_eq_true, decide_eq_true_eq]
      omega
    have hcast : ((q : Int) + 1) = ((q + 1 : Nat) : Int) := by
      push_cast
      ring
    have hstep : ({ AgateSstReaderIterator.mk ⟨T, (q : Int)⟩ cf
          (T.getD q ([], ⟨[], 0, 0⟩)).2 with
        iter := (AgateSstReaderIterator.mk ⟨T, (q : Int)⟩ cf
          (T.getD q ([], ⟨[], 0, 0⟩)).2).iter.next } : AgateSstReaderIterator)
        = AgateSstReaderIterator.mk ⟨T, ((q + 1 : Nat) : Int)⟩ cf
            (T.getD q ([], ⟨[], 0, 0⟩)).2 := by
      show AgateSstReaderIterator.mk ⟨T, (q : Int) + 1⟩ cf (T.getD q ([], ⟨[], 0, 0⟩)).2
        = AgateSstReaderIterator.mk ⟨T, ((q + 1 : Nat) : Int)⟩ cf (T.getD q ([], ⟨[], 0, 0⟩)).2
      rw [hcast]
    have hRhead : (T.drop q).filter liveEntry
        = T.getD q ([], ⟨[], 0, 0⟩) :: (T.drop (q + 1)).filter liveEntry := by
      rw [List.drop_eq_getElem_cons hq,
        List.filter_cons_of_pos (by rw [List.getD_eq_getElem _ _ hq] at hlive; exact hlive),
        List.getD_eq_getElem _ _ hq]
    have hkey : TableIterator.curKey ⟨T, (q : Int)⟩ = (T.getD q ([], ⟨[], 0, 0⟩)).1 := by
      simp [TableIterator.curKey]
    rcases hfl : findLiveFrom T (q + 1) with _ | q'
    · have hnext : (AgateSstReaderIterator.mk ⟨T, (q : Int)⟩ cf
          (T.getD q ([], ⟨[], 0, 0⟩)).2).next
          = (.ok false, AgateSstReaderIterator.mk ⟨T, (T.length : Int)⟩ cf
              (T.getD q ([], ⟨[], 0, 0⟩)).2) := by
        unfold AgateSstReaderIterator.next
        rw [if_neg (by rw [hvalid]; simp)]
        rw [hstep]
        rw [update_fwd_char T cf Hcf (q + 1) _ (by omega), hfl]
      rw [collectForward, hnext]
      rw [hRhead, findLiveFrom_none T (q + 1) hfl]
      rw [hkey]
      rfl
    · obtain ⟨hle', hq', hlive', hfilt'⟩ := findLiveFrom_some T (q + 1) q' hfl
      have hnext : (AgateSstReaderIterator.mk ⟨T, (q : Int)⟩ cf
          (T.getD q ([], ⟨[], 0, 0⟩)).2).next
          = (.ok true, AgateSstReaderIterator.mk ⟨T, (q' : Int)⟩ cf
              (T.getD q' ([], ⟨[], 0, 0⟩)).2) := by
        unfold AgateSstReaderIterator.next
        rw [if_neg (by rw [hvalid]; simp)]
        rw [hstep]
        rw [update_fwd_char T cf Hcf (q + 1) _ (by omega), hfl]
      have hcoll : collectForward
            (AgateSstReaderIterator.mk ⟨T, (q : Int)⟩ cf (T.getD q ([], ⟨[], 0, 0⟩)).2)
          = ((get_cf_and_key (TableIterator.curKey ⟨T, (q : Int)⟩)).2,
              (T.getD q ([], ⟨[], 0, 0⟩)).2.value) ::
            collectForward
              (AgateSstReaderIterator.mk ⟨T, (q' : Int)⟩ cf
                (T.getD q' ([], ⟨[], 0, 0⟩)).2) := by
        rw [collectForward, hnext]
      rw [hcoll]
      rw [collectForward_char T cf Hcf q' hq' hlive']
      rw [hRhead, hfilt']
      rw [hkey]
      rfl
  termination_by q _ _ => T.length - q
  decreasing_by omega

theorem collectBackward_char (T : List (List Nat × SstValue)) (cf : Option (List Nat))
    (Hcf : ∀ e ∈ T, cfMatch cf (get_cf_and_key e.1).1 = true) :
    ∀ q : Nat, q < T.length → liveEntry (T.getD q ([], ⟨[], 0, 0⟩)) = true →
    collectBackward ⟨⟨T, (q : Int)⟩, cf, (T.getD q ([], ⟨[], 0, 0⟩)).2⟩ =
      (((T.take (q + 1)).filter liveEntry).reverse).map
        (fun e => ((get_cf_and_key e.1).2, e.2.value))
  | q, hq, hlive => by
    have hvalid : TableIterator.valid ⟨T, (q : Int)⟩ = true := by
      simp only [TableIterator.valid, Bool.and_eq_true, decide_eq_true_eq]
      omega
    have hgetq : T[q]? = some (T.getD q ([], ⟨[], 0, 0⟩)) := by
      rw [List.getD_eq_getElem _ _ hq]
      exact List.getElem?_eq_getElem hq
    have hRhead : ((T.take (q + 1)).filter liveEntry).reverse
        = T.getD q ([], ⟨[], 0, 0⟩) :: ((T.take q).filter liveEntry).reverse := by
      rw [List.take_succ, hgetq]
      simp only [Option.toList_some]
      rw [List.filter_append, List.filter_cons_of_pos hlive]
      rw [List.reverse_append]
      rfl
    have hkey : TableIterator.curKey ⟨T, (q : Int)⟩ = (T.getD q ([], ⟨[], 0, 0⟩)).1 := by
      simp [TableIterator.curKey]
    have hstep : ({ AgateSstReaderIterator.mk ⟨T, (q : Int)⟩ cf
          (T.getD q ([], ⟨[], 0, 0⟩)).2 with
        iter := (AgateSstReaderIterator.mk ⟨T, (q : Int)⟩ cf
          (T.getD q ([], ⟨[], 0, 0⟩)).2).iter.prev } : AgateSstReaderIterator)
        = AgateSstReaderIterator.mk ⟨T, (q : Int) - 1⟩ cf
            (T.getD q ([], ⟨[], 0, 0⟩)).2 := rfl
    have hback : ((q : Int) - 1 + 1).toNat = q := by omega
    rcases hfl : findLiveDown T ((q : Int) - 1) with _ | q'
    · have hnext : (AgateSstReaderIterator.mk ⟨T, (q : Int)⟩ cf
          (T.getD q ([], ⟨[], 0, 0⟩)).2).prev
          = (.ok false, AgateSstReaderIterator.mk ⟨T, -1⟩ cf
              (T.getD q ([], ⟨[], 0, 0⟩)).2) := by
        unfold AgateSstReaderIterator.prev
        rw [if_neg (by rw [hvalid]; simp)]
        rw [hstep]
        rw [update_bwd_char T cf Hcf ((q : Int) - 1) _ (by omega) (by omega), hfl]
      have hnil : (T.take q).filter liveEntry = [] := by
        have := findLiveDown_none T ((q : Int) - 1) (by omega) (by omega) hfl
        rw [hback] at this
        exact this
      rw [collectBackward, hnext]
      rw [hRhead, hnil]
      rw [hkey]
      rfl
    · obtain ⟨hle', hq', hlive', hfilt'⟩ :=
        findLiveDown_some T ((q : Int) - 1) q' (by omega) (by omega) hfl
      rw [hback] at hfilt'
      have hnext : (AgateSstReaderIterator.mk ⟨T, (q : Int)⟩ cf
          (T.getD q ([], ⟨[], 0, 0⟩)).2).prev
          = (.ok true, AgateSstReaderIterator.mk ⟨T, (q' : Int)⟩ cf
              (T.getD q' ([], ⟨[], 0, 0⟩)).2) := by
        unfold AgateSstReaderIterator.prev
        rw [if_neg (by rw [hvalid]; simp)]
        rw [hstep]
        rw [update_bwd_char T cf Hcf ((q : Int) - 1) _ (by omega) (by omega), hfl]
      have hcoll : collectBackward
            (AgateSstReaderIterator.mk ⟨T, (q : Int)⟩ cf (T.getD q ([], ⟨[], 0, 0⟩)).2)
          = ((get_cf_and_key (TableIterator.curKey ⟨T, (q : Int)⟩)).2,
              (T.getD q ([], ⟨[], 0, 0⟩)).2.value) ::
            collectBackward
              (AgateSstReaderIterator.mk ⟨T, (q' : Int)⟩ cf
                (T.getD q' ([], ⟨[], 0, 0⟩)).2) := by
        rw [collectBackward, hnext]
      rw [hcoll]
      rw [collectBackward_char T cf Hcf q' hq' hlive']
      rw [hRhead, hfilt']
      rw [hkey]
      rfl
  termination_by q _ _ => q
  decreasing_by omega

theorem seek_to_first_char (T : List (List Nat × SstValue)) (cf : Option (List Nat))
    (Hcf : ∀ e ∈ T, cfMatch cf (get_cf_and_key e.1).1 = true)
    (Hge : ∀ e ∈ T, lexLt e.1 ( add_cf_prefix [] cf) = false) :
    (mkReaderIterator cf T).seek_to_first =
      match findLiveFrom T 0 with
      | some q => (true, ⟨⟨T, (q : Int)⟩, cf, (T.getD q ([], ⟨[], 0, 0⟩)).2⟩)
      | none => (false, ⟨⟨T, (T.length : Int)⟩, cf, ⟨[], 0, 0⟩⟩) := by
  have hfi : (T.findIdx fun e => !(lexLt e.1 ( add_cf_prefix [] cf))) = 0 := by
    cases T with
    | nil => rfl
    | cons e rest =>
      rw [List.findIdx_cons]
      rw [Hge e (List.mem_cons_self e rest)]
      rfl
  unfold AgateSstReaderIterator.seek_to_first
  show (AgateSstReaderIterator.mk
      ⟨T, ((T.findIdx fun e => !(lexLt e.1 ( add_cf_prefix [] cf)) : Nat) : Int)⟩
      cf ⟨[], 0, 0⟩).update true = _
  rw [hfi]
  exact update_fwd_char T cf Hcf 0 _ (by omega)

/-- Forward tombstone filtering: full forward iteration of a table all of
whose physical keys belong to the requested family observes exactly the
live entries, in order, as decoded (logical key, value) pairs. -/
theorem fullForward_char (T : List (List Nat × SstValue)) (cf : Option (List Nat))
    (Hcf : ∀ e ∈ T, cfMatch cf (get_cf_and_key e.1).1 = true)
    (Hge : ∀ e ∈ T, lexLt e.1 ( add_cf_prefix [] cf) = false) :
    fullForward cf T
      = (T.filter liveEntry).map (fun e => ((get_cf_and_key e.1).2, e.2.value)) := by
  rcases hfl : findLiveFrom T 0 with _ | q
  · have hfull : fullForward cf T = [] := by
      unfold fullForward
      rw [seek_to_first_char T cf Hcf Hge, hfl]
    have hnil := findLiveFrom_none T 0 hfl
    rw [List.drop_zero] at hnil
    rw [hfull, hnil]
    rfl
  · obtain ⟨_, hq, hlive, hfilt⟩ := findLiveFrom_some T 0 q hfl
    rw [List.drop_zero] at hfilt
    have hfull : fullForward cf T
        = collectForward ⟨⟨T, (q : Int)⟩, cf, (T.getD q ([], ⟨[], 0, 0⟩)).2⟩ := by
      unfold fullForward
      rw [seek_to_first_char T cf Hcf Hge, hfl]
    rw [hfull]
    rw [collectForward_char T cf Hcf q hq hlive]
    rw [hfilt]

theorem seekEndLoop_char (T : List (List Nat × SstValue)) (cf : Option (List Nat))
    (Hcf : ∀ e ∈ T, cfMatch cf (get_cf_and_key e.1).1 = true) :
    ∀ (q : Nat) (cv : SstValue), q < T.length →
    ∃ cv', AgateSstReaderIterator.seekEndLoop ⟨⟨T, (q : Int)⟩, cf, cv⟩
      = (.ok (), ⟨⟨T, (T.length : Int)⟩, cf, cv'⟩)
  | q, cv, hq => by
    have hvalid : TableIterator.valid ⟨T, (q : Int)⟩ = true := by
      simp only [TableIterator.valid, Bool.and_eq_true, decide_eq_true_eq]
      omega
    have hcast : ((q : Int) + 1) = ((q + 1 : Nat) : Int) := by
      push_cast
      ring
    have hstep : ({ AgateSstReaderIterator.mk ⟨T, (q : Int)⟩ cf cv with
        iter := (AgateSstReaderIterator.mk ⟨T, (q : Int)⟩ cf cv).iter.next }
          : AgateSstReaderIterator)
        = AgateSstReaderIterator.mk ⟨T, ((q + 1 : Nat) : Int)⟩ cf cv := by
      show AgateSstReaderIterator.mk ⟨T, (q : Int) + 1⟩ cf cv
        = AgateSstReaderIterator.mk ⟨T, ((q + 1 : Nat) : Int)⟩ cf cv
      rw [hcast]
    rcases hfl : findLiveFrom T (q + 1) with _ | q'
    · have hnext : (AgateSstReaderIterator.mk ⟨T, (q : Int)⟩ cf cv).next
          = (.ok false, AgateSstReaderIterator.mk ⟨T, (T.length : Int)⟩ cf cv) := by
        unfold AgateSstReaderIterator.next
        rw [if_neg (by rw [hvalid]; simp)]
        rw [hstep]
        rw [update_fwd_char T cf Hcf (q + 1) _ (by omega), hfl]
      refine ⟨cv, ?_⟩
      rw [AgateSstReaderIterator.seekEndLoop, hnext]
    · obtain ⟨hle', hq', hlive', _⟩ := findLiveFrom_some T (q + 1) q' hfl
      have hnext : (AgateSstReaderIterator.mk ⟨T, (q : Int)⟩ cf cv).next
          = (.ok true, AgateSstReaderIterator.mk ⟨T, (q' : Int)⟩ cf
              (T.getD q' ([], ⟨[], 0, 0⟩)).2) := by
        unfold AgateSstReaderIterator.next
        rw [if_neg (by rw [hvalid]; simp)]
        rw [hstep]
        rw [update_fwd_char T cf Hcf (q + 1) _ (by omega), hfl]
      obtain ⟨cv', hrec⟩ :=
        seekEndLoop_char T cf Hcf q' ((T.getD q' ([], ⟨[], 0, 0⟩)).2) hq'
      refine ⟨cv', ?_⟩
      have hone : AgateSstReaderIterator.seekEndLoop
            (AgateSstReaderIterator.mk ⟨T, (q : Int)⟩ cf cv)
          = AgateSstReaderIterator.seekEndLoop
            (AgateSstReaderIterator.mk ⟨T, (q' : Int)⟩ cf
              (T.getD q' ([], ⟨[], 0, 0⟩)).2) := by
        rw [AgateSstReaderIterator.seekEndLoop, hnext]
      rw [hone, hrec]
  termination_by q _ _ => T.length - q
  decreasing_by omega

/-- Backward tombstone filtering: full backward iteration observes exactly
the live entries, in reverse order. -/
theorem fullBackward_char (T : List (List Nat × SstValue)) (cf : Option (List Nat))
    (Hcf : ∀ e ∈ T, cfMatch cf (get_cf_and_key e.1).1 = true)
    (Hge : ∀ e ∈ T, lexLt e.1 ( add_cf_prefix [] cf) = false) :
    fullBackward cf T
      = ((T.filter liveEntry).reverse).map
          (fun e => ((get_cf_and_key e.1).2, e.2.value)) := by
  rcases hfl : findLiveFrom T 0 with _ | q0
  · have hfull : fullBackward cf T = [] := by
      unfold fullBackward AgateSstReaderIterator.seek_to_end
      rw [seek_to_first_char T cf Hcf Hge, hfl]
    have hnil := findLiveFrom_none T 0 hfl
    rw [List.drop_zero] at hnil
    rw [hfull, hnil]
    rfl
  · obtain ⟨_, hq0, hlive0, _⟩ := findLiveFrom_some T 0 q0 hfl
    obtain ⟨cv', hloop⟩ :=
      seekEndLoop_char T cf Hcf q0 ((T.getD q0 ([], ⟨[], 0, 0⟩)).2) hq0
    have hto : ((T.length : Int) - 1 + 1).toNat = T.length := by omega
    rcases hfld : findLiveDown T ((T.length : Int) - 1) with _ | qL
    · exfalso
      have hnil := findLiveDown_none T ((T.length : Int) - 1) (by omega) (by omega) hfld
      rw [hto, List.take_length] at hnil
      have hmem : T.getD q0 ([], ⟨[], 0, 0⟩) ∈ T.filter liveEntry := by
        rw [List.mem_filter]
        refine ⟨?_, hlive0⟩
        rw [List.getD_eq_getElem _ _ hq0]
        exact List.getElem_mem hq0
      rw [hnil] at hmem
      exact absurd hmem (List.not_mem_nil _)
    · obtain ⟨_, hqL, hliveL, hfiltL⟩ :=
        findLiveDown_some T ((T.length : Int) - 1) qL (by omega) (by omega) hfld
      rw [hto, List.take_length] at hfiltL
      have hend : (mkReaderIterator cf T).seek_to_end
          = (.ok true, ⟨⟨T, (qL : Int)⟩, cf, (T.getD qL ([], ⟨[], 0, 0⟩)).2⟩) := by
        unfold AgateSstReaderIterator.seek_to_end
        rw [seek_to_first_char T cf Hcf Hge, hfl]
        simp only [hloop]
        rw [show ({ entries := T, pos := (T.length : Int) } : TableIterator).prev
          = ⟨T, (T.length : Int) - 1⟩ from rfl]
        rw [update_bwd_char T cf Hcf ((T.length : Int) - 1) cv' (by omega) (by omega),
          hfld]
      have hfull : fullBackward cf T
          = collectBackward ⟨⟨T, (qL : Int)⟩, cf, (T.getD qL ([], ⟨[], 0, 0⟩)).2⟩ := by
        unfold fullBackward
        rw [hend]
      rw [hfull]
      rw [collectBackward_char T cf Hcf qL hqL hliveL]
      rw [hfiltL]

/-- C8: sorted-table tombstone filtering.  For a finished table whose
entries all encode keys of the requested column family (strictly
increasing, as the writer enforces; family name and logical keys free of
the delimiter), full forward iteration observes exactly the live entries
as (logical key, value) pairs in order, full backward iteration observes
exactly the same entries in reverse, and `smallest_key`/`largest_key`
report the first/last logical key of the table including tombstoned
entries' positions.  In particular a table with one live and one deleted
entry of the family yields exactly one entry on full iteration
(`claim_C8_witness`). -/
theorem claim_C8 (cf : List Nat) (L : List (List Nat × SstValue))
    (hcfc : containsDelim cf = false) (hcfe : ¬ [64, 33] <:+ cf)
    (hkeys : ∀ p ∈ L, containsDelim p.1 = false)
    (hsorted : List.Chain' (fun a b => lexLt a b = true)
      (L.map fun p => add_cf_prefix p.1 (some cf))) :
    fullForward (some cf) (L.map fun p => ( add_cf_prefix p.1 (some cf), p.2))
      = (L.filter liveEntry).map (fun p => (p.1, p.2.value)) ∧
    fullBackward (some cf) (L.map fun p => ( add_cf_prefix p.1 (some cf), p.2))
      = ((L.filter liveEntry).map (fun p => (p.1, p.2.value))).reverse ∧
    (L ≠ [] →
      AgateExternalSstFileInfo.smallest_key
          ⟨L.map fun p => ( add_cf_prefix p.1 (some cf), p.2)⟩
        = (L.head?.getD ([], ⟨[], 0, 0⟩)).1 ∧
      AgateExternalSstFileInfo.largest_key
          ⟨L.map fun p => ( add_cf_prefix p.1 (some cf), p.2)⟩
        = (L.getLast?.getD ([], ⟨[], 0, 0⟩)).1) := by
  have Hcf : ∀ e ∈ (L.map fun p => ( add_cf_prefix p.1 (some cf), p.2)),
      cfMatch (some cf) (get_cf_and_key e.1).1 = true := by
    intro e he
    obtain ⟨p, hp, rfl⟩ := List.mem_map.mp he
    show ((get_cf_and_key ( add_cf_prefix p.1 (some cf))).1 == cf) = true
    rw [get_cf_and_key_add hcfc hcfe (hkeys p hp)]
    simp
  have Hge : ∀ e ∈ (L.map fun p => ( add_cf_prefix p.1 (some cf), p.2)),
      lexLt e.1 ( add_cf_prefix [] (some cf)) = false := by
    intro e he
    obtain ⟨p, hp, rfl⟩ := List.mem_map.mp he
    show lexLt ( add_cf_prefix p.1 (some cf)) ( add_cf_prefix [] (some cf)) = false
    unfold add_cf_prefix
    simp only [Option.getD_some]
    rw [lexLt_append_left]
    exact lexLt_nil_right _
  have hfiltmap : (L.map fun p => ( add_cf_prefix p.1 (some cf), p.2)).filter liveEntry
      = (L.filter liveEntry).map (fun p => ( add_cf_prefix p.1 (some cf), p.2)) := by
    rw [List.filter_map]
    rfl
  have hdecode : ∀ M : List (List Nat × SstValue), (∀ p ∈ M, containsDelim p.1 = false) →
      ((M.map fun p => ( add_cf_prefix p.1 (some cf), p.2)).map
        (fun e => ((get_cf_and_key e.1).2, e.2.value)))
      = M.map (fun p => (p.1, p.2.value)) := by
    intro M hM
    rw [List.map_map]
    refine List.map_congr_left ?_
    intro p hp
    show ((get_cf_and_key ( add_cf_prefix p.1 (some cf))).2, p.2.value) = (p.1, p.2.value)
    rw [get_cf_and_key_add hcfc hcfe (hM p hp)]
  refine ⟨?_, ?_, ?_⟩
  · rw [fullForward_char _ (some cf) Hcf Hge, hfiltmap]
    exact hdecode (L.filter liveEntry) fun p hp => hkeys p (List.mem_of_mem_filter hp)
  · rw [fullBackward_char _ (some cf) Hcf Hge, hfiltmap]
    rw [← List.map_reverse]
    rw [hdecode (L.filter liveEntry).reverse
      fun p hp => hkeys p (List.mem_of_mem_filter (List.mem_reverse.mp hp))]
    rw [List.map_reverse]
  · intro hne
    constructor
    · rcases hL : L with _ | ⟨a, L'⟩
      · exact absurd hL hne
      · subst hL
        unfold AgateExternalSstFileInfo.smallest_key
        show (get_cf_and_key ( add_cf_prefix a.1 (some cf))).2 = a.1
        rw [get_cf_and_key_add hcfc hcfe (hkeys a (List.mem_cons_self a L'))]
    · obtain ⟨g, hg⟩ : ∃ g, L.getLast? = some g := by
        rcases hL : L.getLast? with _ | g
        · rw [List.getLast?_eq_none_iff] at hL
          exact absurd hL hne
        · exact ⟨g, rfl⟩
      have hmemg : g ∈ L := by
        obtain ⟨hne', heq⟩ :=
          List.mem_getLast?_eq_getLast (show g ∈ L.getLast? by rw [hg]; rfl)
        rw [heq]
        exact List.getLast_mem hne'
      unfold AgateExternalSstFileInfo.largest_key
      rw [List.getLast?_map, hg]
      show (get_cf_and_key ( add_cf_prefix g.1 (some cf))).2 = g.1
      rw [get_cf_and_key_add hcfc hcfe (hkeys g hmemg)]

/-- C8 witness: the spec's own example — a table in family `"cf"` with a
live entry `"a" -> "v"` and a tombstoned entry `"b"` — yields exactly one
entry forward and backward, while `smallest_key`/`largest_key` are `"a"`
and `"b"` (the tombstoned entry's position counts). -/
theorem claim_C8_witness :
    fullForward (some (asc "cf"))
        ([(asc "a", ⟨asc "v", 0, 4⟩), (asc "b", ⟨[], 1, 4⟩)].map
          fun p => ( add_cf_prefix p.1 (some (asc "cf")), p.2))
      = [(asc "a", asc "v")] ∧
    fullBackward (some (asc "cf"))
        ([(asc "a", ⟨asc "v", 0, 4⟩), (asc "b", ⟨[], 1, 4⟩)].map
          fun p => ( add_cf_prefix p.1 (some (asc "cf")), p.2))
      = [(asc "a", asc "v")] ∧
    AgateExternalSstFileInfo.smallest_key
        ⟨[(asc "a", ⟨asc "v", 0, 4⟩), (asc "b", ⟨[], 1, 4⟩)].map
          fun p => ( add_cf_prefix p.1 (some (asc "cf")), p.2)⟩
      = asc "a" ∧
    AgateExternalSstFileInfo.largest_key
        ⟨[(asc "a", ⟨asc "v", 0, 4⟩), (asc "b", ⟨[], 1, 4⟩)].map
          fun p => ( add_cf_prefix p.1 (some (asc "cf")), p.2)⟩
      = asc "b" := by
  obtain ⟨h1, h2, h3⟩ :=
    claim_C8 (asc "cf") [(asc "a", ⟨asc "v", 0, 4⟩), (asc "b", ⟨[], 1, 4⟩)]
      (by decide) (by decide) (by decide)
      (List.chain'_cons.mpr ⟨by decide, List.chain'_singleton _⟩)
  obtain ⟨h4, h5⟩ := h3 (by decide)
  exact ⟨h1.trans (by decide), h2.trans (by decide),
    h4.trans (by decide), h5.trans (by decide)⟩
